import Mathlib

/-!
Verification development for the audibro broadcast-authentication core
(HORST signatures over Merkle trees, layered key manager, TOFU block
verifier, datagram fragmentation, sender state persistence).

The Rust source is shallowly embedded: bytes are `Nat`s, byte strings are
`List Nat`, machine integers are `Nat` with explicit `% 2 ^ w` where the
source's wrapping matters, and external-crate primitives (SHA-3, xxh3,
ChaCha20, bincode) are abstract function parameters.  Fallible code
(`panic!` / `expect` / `assert!`) is modelled with `Option` or an explicit
outcome type.
-/

namespace Audibro

/-! ## Byte and list utilities -/

/-- Little-endian byte encoding of `n` on `w` bytes (Rust `to_le_bytes`;
the encoded value is `n % 2 ^ (8 * w)`). -/
def leBytes : Nat → Nat → List Nat
  | 0, _ => []
  | w + 1, n => n % 256 :: leBytes w (n / 256)

/-- Little-endian byte decoding (Rust `read_u64::<LittleEndian>` etc.). -/
def fromLE (bs : List Nat) : Nat :=
  bs.foldr (fun b acc => b + 256 * acc) 0

/-- `nth l i d`: the `i`-th element of `l`, or `d` when out of range
(models Rust slice indexing; all in-range uses are justified at the
call sites). -/
def nth {α : Type} : List α → Nat → α → α
  | [], _, d => d
  | a :: _, 0, _ => a
  | _ :: l, i + 1, d => nth l i d

/-- `setNth l i v`: `l` with position `i` replaced by `v` (no-op when out
of range; models Rust `l[i] = v`, in range at all call sites). -/
def setNth {α : Type} : List α → Nat → α → List α
  | [], _, _ => []
  | _ :: l, 0, v => v :: l
  | a :: l, i + 1, v => a :: setNth l i v

/-! ## Merkle tree (`src/merkle_tree.rs`)

The source stores the tree as one flat array of `2 ^ h - 1` blocks, with
layer `l` starting at flat index `2 ^ l - 1`; node `(l, i)` is
`data[2 ^ l - 1 + i]`.  The embedding stores the same nodes as a list of
layers (`data[l][i]` = flat `data[2 ^ l - 1 + i]`), the root layer first,
built bottom-up exactly as the constructor's loop does. -/

/-- `Hash::digest(x)` truncated to `BLOCK_SIZE` bytes
(`copy_from_slice(&hash[..BLOCK_SIZE])`). -/
def hashB (th : List Nat → List Nat) (B : Nat) (x : List Nat) : List Nat :=
  (th x).take B

/-- One bottom-up step of `MerkleTree::new`: node `i` of the upper layer is
the hash of the concatenation of nodes `2*i` and `2*i+1` of `cur`. -/
def combine (g : List Nat → List Nat) : List (List Nat) → List (List Nat)
  | [] => []
  | [_] => []
  | x :: y :: rest => g (x ++ y) :: combine g rest

/-- The layers of the tree over leaf-hash layer `cur` (`cur.length = 2 ^ k`),
root layer first: the constructor's loop `for l in (0..h-1).rev()`. -/
def buildLevels (g : List Nat → List Nat) : Nat → List (List Nat) → List (List (List Nat))
  | 0, cur => [cur]
  | k + 1, cur => buildLevels g k (combine g cur) ++ [cur]

structure MerkleTree where
  data : List (List (List Nat))
  t : Nat
  h : Nat
  size : Nat
deriving Repr, DecidableEq

/-- Floor of `log2` (fuel-based so that it is kernel-computable; the fuel
argument only needs to be at least `n`). -/
def log2fAux : Nat → Nat → Nat
  | 0, _ => 0
  | fuel + 1, n => if 2 ≤ n then log2fAux fuel (n / 2) + 1 else 0

def log2f (n : Nat) : Nat := log2fAux n n

/-- Ceiling of `log2` (fuel-based), the same recursion as `Nat.clog 2`. -/
def clog2fAux : Nat → Nat → Nat
  | 0, _ => 0
  | fuel + 1, n => if 2 ≤ n then clog2fAux fuel ((n + 1) / 2) + 1 else 0

def clog2f (n : Nat) : Nat := clog2fAux n n

/-- The constructor's power-of-two gate
`assert_eq!(h.ceil() as usize, h as usize)` on `h = (t as f32).log2()`.
For `t = 0`, `log2` is `-inf` and both `usize` casts saturate to `0`, so
the assertion passes; for `1 ≤ t` (below f32 precision loss, which covers
every deployed `T`) it passes exactly on powers of two; `clog2f` /
`log2f` are the ceiling/floor of the real `log2` there. -/
def pow2Check (t : Nat) : Bool := clog2f t == log2f t

/-- `MerkleTree::new`: `none` models the assertion failing.  For `t = 0`
the flat array is the single zero block, never overwritten. -/
def MerkleTree.new (th : List Nat → List Nat) (B : Nat) (leaves : List (List Nat)) :
    Option MerkleTree :=
  if pow2Check leaves.length then
    let t := leaves.length
    let h := log2f t + 1
    some { data := if t = 0 then [[List.replicate B 0]]
                   else buildLevels (hashB th B) (log2f t) (leaves.map (hashB th B)),
           t := t, h := h, size := 2 ^ h - 1 }
  else none

/-- `MerkleTree::get(layer, idx)` on the layered representation. -/
def getNode (levels : List (List (List Nat))) (l i : Nat) : List Nat :=
  nth (nth levels l []) i []

/-- `MerkleTree::root()`. -/
def MerkleTree.root (mt : MerkleTree) : List Nat := getNode mt.data 0 0

/-- The loop of `get_auth_path`: `for h in (1..self.h).rev()`, pushing the
sibling node at each layer and halving the index.  The first argument is
the number of remaining iterations; iteration with `hh + 1` remaining
reads layer `hh + 1`. -/
def authAux (levels : List (List (List Nat))) : Nat → Nat → List (List Nat)
  | 0, _ => []
  | hh + 1, i =>
    let sib := if i % 2 = 0 then i + 1 else i - 1
    getNode levels (hh + 1) sib :: authAux levels hh (sib / 2)

/-- `MerkleTree::get_auth_path`; `none` models the
`panic!("Leaf index out of range!")`. -/
def MerkleTree.get_auth_path (mt : MerkleTree) (leaf_idx : Nat) : Option (List (List Nat)) :=
  if leaf_idx ≥ mt.t then none
  else some (authAux mt.data (mt.h - 1) leaf_idx)

/-- The root-recomputation loop of `HorstSigScheme::verify` over one auth
path: `if idx % 2 == 1 { h = H(s ‖ h) } else { h = H(h ‖ s) }; idx /= 2`. -/
def foldVerify (g : List Nat → List Nat) : Nat → List Nat → List (List Nat) → List Nat
  | _, cur, [] => cur
  | idx, cur, s :: rest =>
    foldVerify g (idx / 2) (if idx % 2 = 1 then g (s ++ cur) else g (cur ++ s)) rest

/-! ## HORST signature scheme (`src/horst.rs`, `src/utils.rs`) -/

/-- The eight bits of a byte, most significant first (the `BitReader` is
MSB-first). -/
def byteToBits (b : Nat) : List Nat :=
  (List.range 8).map (fun k => b / 2 ^ (7 - k) % 2)

/-- Big-endian value of a bit list. -/
def bitsToNat (bits : List Nat) : Nat :=
  bits.foldl (fun acc b => 2 * acc + b) 0

/-- `utils::get_segment_indices::<K, HASH_SIZE, TAU>`: an MSB-first bit
reader over the message hash, reading `K` groups of `TAU` bits. -/
def get_segment_indices (K TAU : Nat) (msg_hash : List Nat) : List Nat :=
  (List.range K).map (fun i =>
    bitsToNat (((msg_hash.flatMap byteToBits).drop (i * TAU)).take TAU))

/-- Abstract CSPRNG (ChaCha20 is an external crate): an unbounded byte
stream with a read position. -/
structure RngState where
  stream : Nat → Nat
  pos : Nat

/-- `rng.fill_bytes` on an `n`-byte buffer. -/
def fillBytes (r : RngState) (n : Nat) : List Nat × RngState :=
  ((List.range n).map (fun i => r.stream (r.pos + i)), ⟨r.stream, r.pos + n⟩)

/-- The key-generation loop of `HorstSecretKey::new`: `t` blocks of `n`
random bytes, filled in order. -/
def genBlocks (n : Nat) : Nat → RngState → List (List Nat) × RngState
  | 0, r => ([], r)
  | t + 1, r =>
    let p := fillBytes r n
    let q := genBlocks n t p.2
    (p.1 :: q.1, q.2)

structure HorstSecretKey where
  data : List (List Nat)
  tree : MerkleTree
deriving Repr, DecidableEq

/-- `KeyPair<HorstSecretKey, HorstPublicKey>`; `public` is the `N`-byte
Merkle root (`HorstPublicKey::data`). -/
structure HorstKeyPair where
  secret : HorstSecretKey
  public : List Nat
deriving Repr, DecidableEq

/-- Fallback for the `Option` returned by the embedded `MerkleTree::new`
(never reached from `gen_key_pair`, where `T = 2 ^ TAU` is a power of two). -/
def defaultTree : MerkleTree := { data := [[]], t := 0, h := 1, size := 1 }

/-- `HorstSigScheme::gen_key_pair`: `T = 2 ^ TAU` random `N`-byte secrets,
their Merkle tree, and the root as the public key. -/
def gen_key_pair (N TAU : Nat) (th : List Nat → List Nat) (rng : RngState) :
    HorstKeyPair × RngState :=
  let p := genBlocks N (2 ^ TAU) rng
  let tree := (MerkleTree.new th N p.1).getD defaultTree
  ({ secret := { data := p.1, tree := tree }, public := tree.root }, p.2)

/-- `HorstSigScheme::sign`: for each of the `K` segment indices `c`, the
signature element is the secret `sk.data[c]` followed by the `TAU`-node
auth path for leaf `c`. -/
def horst_sign (K TAU M : Nat) (mh : List Nat → List Nat) (msg : List Nat)
    (sk : HorstSecretKey) : List (List (List Nat)) :=
  let msg_hash := (mh msg).take M
  let indices := get_segment_indices K TAU msg_hash
  indices.map (fun c => nth sk.data c [] :: (sk.tree.get_auth_path c).getD [])

/-- One segment of `HorstSigScheme::verify`: hash the revealed secret
(`j = 0`), then walk the auth path with `foldVerify`.  For an empty
segment the running value stays at `TreeHashFn::digest(b"")`. -/
def segmentRoot (th : List Nat → List Nat) (idx : Nat) : List (List Nat) → List Nat
  | [] => th []
  | s :: rest => foldVerify th idx (th s) rest

/-- The verification loop: segment `i` of the signature is checked with
segment index `indices[i]`; all recomputed roots must equal the public
key.  (The source indexes `indices[i]` and would panic past `K` segments;
every signature checked here has exactly `K` of them.) -/
def verifySegments (th : List Nat → List Nat) (N : Nat) (pk : List Nat) :
    List Nat → List (List (List Nat)) → Bool
  | _, [] => true
  | ixs, seg :: rest =>
    ((segmentRoot th (ixs.headD 0) seg).take N == pk)
      && verifySegments th N pk ixs.tail rest

/-- `HorstSigScheme::verify`. -/
def horst_verify (N K TAU M : Nat) (th mh : List Nat → List Nat) (msg : List Nat)
    (sig : List (List (List Nat))) (pk : List Nat) : Bool :=
  let msg_hash := (mh msg).take M
  let indices := get_segment_indices K TAU msg_hash
  verifySegments th N pk indices sig

/-! ## Block verifier (`src/block_signer.rs`, `BlockVerifierTrait` impl)

The verifier state is the public-key cache
`pks : HashMap<PublicKey, (UnixTimestamp, u8)>`, embedded as an
association list of `(key bytes, (timestamp, layer))` whose order is the
map's (unspecified) iteration order; a fresh `HashMap::insert` is embedded
as an append.  `bincode` serialization and `xxh3_64` are abstract
parameters. -/

structure KeyWrapperM where
  key : List Nat
  layer : Nat
deriving Repr, DecidableEq

structure SignedBlockM where
  data : List Nat
  signature : List (List (List Nat))
  pub_keys : List KeyWrapperM
deriving Repr, DecidableEq

/-- One cache entry: `(public-key bytes, (first-seen timestamp, layer))`. -/
abbrev PkEntry := List Nat × Nat × Nat

/-- `self.pks.contains_key(k)`. -/
def containsKey (pks : List PkEntry) (k : List Nat) : Bool :=
  pks.any (fun e => e.1 == k)

/-- The certification loop of `verify`: insert every piggybacked key that
is not yet cached, with timestamp `now` and its layer tag. -/
def certify (now : Nat) (pks : List PkEntry) (pub_keys : List KeyWrapperM) : List PkEntry :=
  pub_keys.foldl
    (fun acc kw => if containsKey acc kw.key then acc else acc ++ [(kw.key, now, kw.layer)])
    pks

/-- One step of the bucket-building loop of `prune_pks`: pad `from_layer`
with empty buckets up to the entry's layer index
(`missing = max(0, (level+1) - from_layer.len())`), then push the entry's
`(key, timestamp)` pair into its layer's bucket. -/
def bucketStep (fl : List (List (List Nat × Nat))) (e : PkEntry) :
    List (List (List Nat × Nat)) :=
  let fl2 := fl ++ List.replicate ((e.2.2 + 1) - fl.length) ([] : List (List Nat × Nat))
  setNth fl2 e.2.2 (nth fl2 e.2.2 [] ++ [(e.1, e.2.1)])

/-- The bucket-building loop of `prune_pks`: per-layer lists of
`(key, timestamp)` pairs in cache-iteration order. -/
def bucketsOf (pks : List PkEntry) : List (List (List Nat × Nat)) :=
  pks.foldl bucketStep []

/-- Stable insertion used to model Rust's stable `sort_by_key(|x| x.1)`:
an element goes before the first strictly larger timestamp, so elements
with equal timestamps keep their original relative order. -/
def insByTs (x : List Nat × Nat) : List (List Nat × Nat) → List (List Nat × Nat)
  | [] => [x]
  | y :: ys => if y.2 < x.2 then y :: insByTs x ys else x :: y :: ys

/-- Stable sort by timestamp (ascending), as `sort_by_key` is stable. -/
def sortByTs (l : List (List Nat × Nat)) : List (List Nat × Nat) :=
  l.foldr insByTs []

/-- The keys removed by the per-bucket loop of `prune_pks`: of each
bucket sorted by timestamp, the keys of the first
`len - max_per_layer` entries. -/
def removedOf (maxPerLayer : Nat) (buckets : List (List (List Nat × Nat))) :
    List (List Nat) :=
  buckets.foldl
    (fun acc b => acc ++ ((sortByTs b).take (b.length - maxPerLayer)).map Prod.fst) []

/-- `BlockSigner::prune_pks(max_per_layer)`: bucket the cache per layer,
sort each bucket by timestamp (stable), and remove from the map the keys
of the first `len - max_per_layer` entries of each sorted bucket. -/
def prune_pks (maxPerLayer : Nat) (pks : List PkEntry) : List PkEntry :=
  pks.filter (fun e => !((removedOf maxPerLayer (bucketsOf pks)).contains e.1))

structure VerifyOut where
  pks : List PkEntry
  payload : List Nat
  authenticated : Bool
  hash_sign : Nat
  hash_pks : Nat
deriving Repr, DecidableEq

/-- `BlockVerifierTrait::verify` on an already-deserialized block:
XOR digests of signature and piggybacked keys, signature verification
against every cached key, certification of the piggybacked keys when the
signature verified or the cache is empty, then pruning.  (`store_state`
is ambient I/O and has no effect on the returned value or the cache.) -/
def verify_block (N K TAU M : Nat) (th mh : List Nat → List Nat)
    (ser : List KeyWrapperM → List Nat) (xxh : List Nat → Nat) (maxPks : Nat)
    (pks : List PkEntry) (block : SignedBlockM) (now : Nat) : VerifyOut :=
  let hash_sign := block.signature.foldl
    (fun t2 x => x.foldl (fun a y => Nat.xor a (xxh y)) t2) 0
  let hash_pks := block.pub_keys.foldl (fun t kw => Nat.xor t (xxh kw.key)) 0
  let to_verify := block.data ++ ser block.pub_keys
  let valid := pks.any (fun e => horst_verify N K TAU M th mh to_verify block.signature e.1)
  let pks2 := if valid || pks.isEmpty
    then prune_pks maxPks (certify now pks block.pub_keys)
    else pks
  { pks := pks2, payload := block.data, authenticated := valid,
    hash_sign := hash_sign, hash_pks := hash_pks }

inductive VerifyBytesResult
  | crash
  | ok (out : VerifyOut)
deriving Repr, DecidableEq

/-- `verify` including the leading
`bincode::deserialize(&data).expect("Should be deserializable!")`:
when the (abstract) decoder fails, the `expect` PANICS — modelled as
`crash`; no error value is returned. -/
def verify_bytes (N K TAU M : Nat) (th mh : List Nat → List Nat)
    (ser : List KeyWrapperM → List Nat) (xxh : List Nat → Nat) (maxPks : Nat)
    (dec : List Nat → Option SignedBlockM)
    (pks : List PkEntry) (data : List Nat) (now : Nat) : VerifyBytesResult :=
  match dec data with
  | none => .crash
  | some block => .ok (verify_block N K TAU M th mh ser xxh maxPks pks block now)

/-- Number of cached keys tagged with layer `l`. -/
def countLayer (l : Nat) (pks : List PkEntry) : Nat :=
  (pks.filter (fun e => e.2.2 == l)).length

/-- Byte-wise (lexicographic) order on key bytes, for the spec's
tie-breaking rule. -/
def keyLt : List Nat → List Nat → Bool
  | [], [] => false
  | [], _ :: _ => true
  | _ :: _, [] => false
  | a :: as_, b :: bs => if a < b then true else if b < a then false else keyLt as_ bs

/-- Ascending (timestamp, key byte-order) comparison on bucket pairs. -/
def tsKeyLt (a b : List Nat × Nat) : Bool :=
  if a.2 < b.2 then true else if b.2 < a.2 then false else keyLt a.1 b.1

def insByTsKey (x : List Nat × Nat) : List (List Nat × Nat) → List (List Nat × Nat)
  | [] => [x]
  | y :: ys => if tsKeyLt y x then y :: insByTsKey x ys else x :: y :: ys

def sortByTsKey (l : List (List Nat × Nat)) : List (List Nat × Nat) :=
  l.foldr insByTsKey []

/-- Pruning as the SPEC words it (§4.E step 5 / §8 item 6): per layer
retain only the `MAX_PKS_PER_LAYER` newest entries, evicting oldest
timestamps first with ties broken by key byte-order.  Stated from the
spec's words, for comparison with `prune_pks` (the code). -/
def prune_pks_spec (maxPerLayer : Nat) (pks : List PkEntry) : List PkEntry :=
  pks.filter (fun e =>
    let layerEntries := (pks.filter (fun e2 => e2.2.2 == e.2.2)).map
      (fun e2 => (e2.1, e2.2.1))
    let evictCount := layerEntries.length - maxPerLayer
    !(((sortByTsKey layerEntries).take evictCount).map Prod.fst).contains e.1)

/-! ## Key-layer manager and block signer (`src/block_signer.rs`, sender half)

The sender's state is the CSPRNG plus the key layers.  The discrete
distribution (`rand` crate, `f64` arithmetic) is abstracted as a sampling
function `sampleFn : RngState → Nat × RngState` consuming the CSPRNG;
`bincode` is the abstract serializer `ser`.  `store_state` is ambient
file I/O with no effect on the in-memory state or outputs. -/

structure KeyCont where
  key : HorstKeyPair
  last_cerified : Nat
  signs : Nat
  lifetime : Nat
deriving Repr, DecidableEq

structure KeyLayers where
  data : List (List KeyCont)
  first_sign : Bool
  until_top : Nat
  next_seq : Nat
deriving Repr, DecidableEq

def KeyLayers.new (depth : Nat) : KeyLayers :=
  { data := List.replicate depth [], first_sign := true, until_top := 0, next_seq := 0 }

/-- `KeyLayers::insert`: push a fresh container (`signs = 0`, hardcoded
`lifetime = 20`) onto the given layer.  (`data[level]` panics on an
out-of-range level; every call site passes an in-range one.) -/
def KeyLayers.insert (st : KeyLayers) (level : Nat) (kp : HorstKeyPair) : KeyLayers :=
  { st with
    data := setNth st.data level
      (nth st.data level []
        ++ [{ key := kp, last_cerified := 0, signs := 0, lifetime := 20 }]) }

/-- `KeyLayers::poll`: bump the front key's sign counter and timestamp,
clone it out, remove it when `(lifetime - signs) <= 0` — an unsigned
(`usize`) subtraction, so the guard is `lifetime - signs == 0` — and
report whether it died (`first_sign` is also cleared).  `none` models the
`expect` panic on a missing or empty layer. -/
def KeyLayers.poll (st : KeyLayers) (layer ts : Nat) :
    Option (KeyCont × Bool × KeyLayers) :=
  match nth st.data layer [] with
  | [] => none
  | k0 :: rest =>
    let k0' : KeyCont := { k0 with signs := k0.signs + 1, last_cerified := ts }
    let died := k0'.lifetime - k0'.signs == 0
    let newLayer := if died then rest else k0' :: rest
    some (k0', died,
      { st with data := setNth st.data layer newLayer, first_sign := false })

structure SignerSt where
  rng : RngState
  layers : KeyLayers

/-- The public-key collection loop of `next_key`: every live keypair's
public key across all layers, tagged with its layer index. -/
def collect_pks_aux : Nat → List (List KeyCont) → List KeyWrapperM
  | _, [] => []
  | i, layer :: rest =>
    layer.map (fun k => { key := k.key.public, layer := i })
      ++ collect_pks_aux (i + 1) rest

def collect_pks (L : KeyLayers) : List KeyWrapperM := collect_pks_aux 0 L.data

/-- `BlockSigner::next_key`: collect the piggybacked public keys, choose
the layer (0 on the first sign, else a sample from the weighted
distribution, consuming the CSPRNG), poll it, and on death generate a
replacement keypair (consuming the CSPRNG) into the same layer.  The
source's locals `pks`, `sign_layer` and the sampled RNG state are
written out inline here. -/
def BlockSigner.next_key (sampleFn : RngState → Nat × RngState)
    (N TAU : Nat) (th : List Nat → List Nat) (st : SignerSt) (ts : Nat) :
    Option (HorstSecretKey × List KeyWrapperM × SignerSt) :=
  match st.layers.poll
      (if st.layers.first_sign then ((0 : Nat), st.rng) else sampleFn st.rng).1 ts with
  | none => none
  | some (signing_key, died, layers2) =>
    if died then
      some (signing_key.key.secret, collect_pks st.layers,
        { rng := (gen_key_pair N TAU th
            (if st.layers.first_sign then ((0 : Nat), st.rng) else sampleFn st.rng).2).2,
          layers := layers2.insert
            (if st.layers.first_sign then ((0 : Nat), st.rng) else sampleFn st.rng).1
            (gen_key_pair N TAU th
              (if st.layers.first_sign then ((0 : Nat), st.rng)
               else sampleFn st.rng).2).1 })
    else
      some (signing_key.key.secret, collect_pks st.layers,
        { rng := (if st.layers.first_sign then ((0 : Nat), st.rng)
            else sampleFn st.rng).2,
          layers := layers2 })

/-- `BlockSignerTrait::new`, fresh-start path (no identity file on disk):
seed the CSPRNG, then insert two freshly generated keypairs per layer,
in layer order. -/
def BlockSigner.new (seedFn : Nat → RngState) (N TAU : Nat)
    (th : List Nat → List Nat) (seed layersCount : Nat) : SignerSt :=
  let fin := (List.range layersCount).foldl
    (fun (p : KeyLayers × RngState) l_idx =>
      let g1 := gen_key_pair N TAU th p.2
      let g2 := gen_key_pair N TAU th g1.2
      ((p.1.insert l_idx g1.1).insert l_idx g2.1, g2.2))
    (KeyLayers.new layersCount, seedFn seed)
  { rng := fin.2, layers := fin.1 }

/-- `BlockSignerTrait::sign`: get the key and piggybacked public keys,
sign `payload ‖ serialize(pub_keys)`, and return the emitted
`(signature, pub_keys)` pair with the successor state. -/
def BlockSigner.sign (sampleFn : RngState → Nat × RngState)
    (N K TAU M : Nat) (th mh : List Nat → List Nat)
    (ser : List KeyWrapperM → List Nat) (st : SignerSt)
    (payload : List Nat) (ts : Nat) :
    Option ((List (List (List Nat)) × List KeyWrapperM) × SignerSt) :=
  match BlockSigner.next_key sampleFn N TAU th st ts with
  | none => none
  | some (sk, pub_keys, st2) =>
    let data_to_sign := payload ++ ser pub_keys
    some ((horst_sign K TAU M mh data_to_sign sk, pub_keys), st2)

/-- A sender run: sign each payload in order, timestamps supplied by an
oracle indexed by position; stops (panic) if a layer is ever empty. -/
def signRun (sampleFn : RngState → Nat × RngState)
    (N K TAU M : Nat) (th mh : List Nat → List Nat)
    (ser : List KeyWrapperM → List Nat) :
    List (List Nat) → SignerSt → (Nat → Nat) → Nat →
      List (List (List (List Nat)) × List KeyWrapperM)
  | [], _, _, _ => []
  | payload :: rest, st, tsOracle, i =>
    match BlockSigner.sign sampleFn N K TAU M th mh ser st payload (tsOracle i) with
    | none => []
    | some (out, st2) => out :: signRun sampleFn N K TAU M th mh ser rest st2 tsOracle (i + 1)

/-! ### Timestamp erasure (for the determinism claim) -/

/-- Forget the only timestamp-dependent field of a key container. -/
def eraseCont (k : KeyCont) : KeyCont := { k with last_cerified := 0 }

def eraseLayers (L : KeyLayers) : KeyLayers :=
  { L with data := L.data.map (fun layer => layer.map eraseCont) }

/-- Relation between two `poll` results that differ at most in recorded
timestamps. -/
def PollRel : Option (KeyCont × Bool × KeyLayers) →
    Option (KeyCont × Bool × KeyLayers) → Prop
  | none, none => True
  | some (k1, d1, L1), some (k2, d2, L2) =>
    eraseCont k1 = eraseCont k2 ∧ d1 = d2 ∧ eraseLayers L1 = eraseLayers L2
  | _, _ => False

/-- Relation between two `next_key` results that differ at most in
recorded timestamps. -/
def NextKeyRel : Option (HorstSecretKey × List KeyWrapperM × SignerSt) →
    Option (HorstSecretKey × List KeyWrapperM × SignerSt) → Prop
  | none, none => True
  | some (sk1, pks1, s1), some (sk2, pks2, s2) =>
    sk1 = sk2 ∧ pks1 = pks2 ∧ s1.rng = s2.rng ∧ eraseLayers s1.layers = eraseLayers s2.layers
  | _, _ => False

/-- A one-layer signer state holding a single fresh keypair, used to
instantiate the eviction theorem. -/
def c4Cont : KeyCont :=
  { key := (gen_key_pair 1 0 (fun y => [y.sum % 256]) ⟨fun _ => 0, 0⟩).1,
    last_cerified := 0, signs := 0, lifetime := 20 }

def c4State : SignerSt :=
  { rng := ⟨fun _ => 0, 0⟩,
    layers := { data := [[c4Cont]], first_sign := true, until_top := 0, next_seq := 0 } }

/-! ## Datagram codec (`src/net_sender.rs`, `src/net_receiver.rs`) -/

/-- `common::get_datagram_sizes` for a configured `DATAGRAM_SIZE` of `D`
bytes: `(total, header, payload)`; the header is one `u64` plus two
`u32`s, 16 bytes. -/
def get_datagram_sizes (D : Nat) : Nat × Nat × Nat := (D, 16, D - 16)

/-- The `i`-th datagram emitted by `split_to_datagrams`: the 16-byte
little-endian header (block hash, index, count) followed by the `i`-th
payload-size chunk read sequentially off the data cursor. -/
def dgramOf (P : Nat) (xxh : List Nat → Nat) (data : List Nat) (cnt i : Nat) : List Nat :=
  leBytes 8 (xxh data) ++ (leBytes 4 i ++ (leBytes 4 cnt ++ (data.drop (i * P)).take P))

/-- `NetSender::split_to_datagrams` (`xxh` abstracts `xxh3_64`). -/
def split_to_datagrams (D : Nat) (xxh : List Nat → Nat) (data : List Nat) : List (List Nat) :=
  let payload_size := (get_datagram_sizes D).2.2
  let num_dgrams := (data.length + payload_size - 1) / payload_size
  (List.range num_dgrams).map (dgramOf payload_size xxh data num_dgrams)

/-- `net_receiver::parse_datagram`; `none` models the `expect` panic on a
datagram shorter than its 16-byte header. -/
def parse_datagram (d : List Nat) : Option (Nat × Nat × Nat × List Nat) :=
  if d.length < 16 then none
  else some (fromLE (d.take 8), fromLE ((d.drop 8).take 4),
    fromLE ((d.drop 12).take 4), d.drop 16)

/-- `net_receiver::FragmentedBlock` (the missing-index hash-set as a
list). -/
structure FragmentedBlock where
  data : List Nat
  frag_size : Nat
  missing_indices : List Nat
deriving Repr, DecidableEq

/-- `FragmentedBlock::new`: a zero-filled `frag_size · num_fragments`
buffer with every index missing. -/
def FragmentedBlock.new (frag_size num_fragments : Nat) : FragmentedBlock :=
  { data := List.replicate (frag_size * num_fragments) 0,
    frag_size := frag_size,
    missing_indices := List.range num_fragments }

/-- `self.data[idx_from..idx_to].copy_from_slice(fragment)` on the
buffer. -/
def writeAt (buf : List Nat) (start : Nat) (frag : List Nat) : List Nat :=
  buf.take start ++ (frag ++ buf.drop (start + frag.length))

/-- `FragmentedBlock::insert`: the outer `none` models the slice-bounds
panic of `copy_from_slice`; the inner option is `Some(buffer)` on
completion. -/
def FragmentedBlock.insert (b : FragmentedBlock) (idx : Nat) (fragment : List Nat) :
    Option (Option (List Nat) × FragmentedBlock) :=
  let idx_from := idx * b.frag_size
  let idx_to := idx_from + fragment.length
  if b.data.length < idx_to then none
  else
    let data2 := writeAt b.data idx_from fragment
    let missing2 := b.missing_indices.filter (fun j => decide (j ≠ idx))
    some (if missing2.isEmpty then some data2 else none,
      { data := data2, frag_size := b.frag_size, missing_indices := missing2 })

def alLookup : List (Nat × FragmentedBlock) → Nat → Option FragmentedBlock
  | [], _ => none
  | (k, v) :: rest, h => if k = h then some v else alLookup rest h

def alUpdate : List (Nat × FragmentedBlock) → Nat → FragmentedBlock →
    List (Nat × FragmentedBlock)
  | [], _, _ => []
  | (k, v) :: rest, h, v2 =>
    if k = h then (k, v2) :: rest else (k, v) :: alUpdate rest h v2

def alRemove : List (Nat × FragmentedBlock) → Nat → List (Nat × FragmentedBlock)
  | [], _ => []
  | (k, v) :: rest, h => if k = h then rest else (k, v) :: alRemove rest h

/-- `FragmentedBlocks::insert` (the hash map as an association list):
allocate a record on the first datagram of an unknown hash, copy the
fragment in, and on completion emit the buffer and drop the record. -/
def FragmentedBlocks.insert (D : Nat) (st : List (Nat × FragmentedBlock))
    (dgram : List Nat) : Option (Option (List Nat) × List (Nat × FragmentedBlock)) :=
  match parse_datagram dgram with
  | none => none
  | some (hash, idx, num_fragments, data) =>
    let payload_size := (get_datagram_sizes D).2.2
    let st1 := match alLookup st hash with
      | some _ => st
      | none => st ++ [(hash, FragmentedBlock.new payload_size num_fragments)]
    match alLookup st1 hash with
    | none => none
    | some record =>
      match record.insert idx data with
      | none => none
      | some (some x, _) => some (some x, alRemove st1 hash)
      | some (none, rec2) => some (none, alUpdate st1 hash rec2)

/-- The receive loop of `NetReceiver::receive` run over a finite datagram
sequence, collecting every completed block in arrival order. -/
def feedAll (D : Nat) : List (List Nat) → List (Nat × FragmentedBlock) →
    Option (List (List Nat) × List (Nat × FragmentedBlock))
  | [], st => some ([], st)
  | d :: ds, st =>
    match FragmentedBlocks.insert D st d with
    | none => none
    | some (res, st2) =>
      match feedAll D ds st2 with
      | none => none
      | some (outs, stF) =>
        some ((match res with | some x => [x] | none => []) ++ outs, stF)

/-- The reassembly buffer after the fragments listed in `done` have been
copied in: a position holds its data byte iff its fragment has arrived
and the position is below the data length, else the zero fill. -/
def bufOf (P : Nat) (data : List Nat) (cnt : Nat) (done : List Nat) : List Nat :=
  (List.range (P * cnt)).map
    (fun pos => if pos / P ∈ done ∧ pos < data.length then nth data pos 0 else 0)

/-- The assembly record after the fragments listed in `done` arrived. -/
def blockOf (P : Nat) (data : List Nat) (cnt : Nat) (done : List Nat) : FragmentedBlock :=
  { data := bufOf P data cnt done,
    frag_size := P,
    missing_indices := (List.range cnt).filter (fun j => decide (j ∉ done)) }

/-- The reassembler state after the fragments listed in `done` arrived:
empty before the first datagram, a single record afterwards. -/
def fragStOf (P : Nat) (xxh : List Nat → Nat) (data : List Nat) (cnt : Nat)
    (done : List Nat) : List (Nat × FragmentedBlock) :=
  if done.isEmpty then []
  else [(xxh data % 256 ^ 8, blockOf P data cnt done)]

/-! ## Persisted identity file (`BlockSigner::store_state` /
`BlockSigner::load_state`) -/

/-- The byte stream written by `store_state`, with the four
bincode-serialized sections abstracted as byte lists: four `u64 LE`
section lengths first, then the four section bodies in the order
{rng, layers, pks, distribution}. -/
def store_state_bytes (r l p d : List Nat) : List Nat :=
  leBytes 8 r.length ++ (leBytes 8 l.length ++ (leBytes 8 p.length
    ++ (leBytes 8 d.length ++ (r ++ (l ++ (p ++ d))))))

/-- The reads of `load_state` after the file was opened: four `u64 LE`
lengths, then four `read_exact` reads of those lengths; `none` models the
`expect` panic when the stream is too short. -/
def load_state_bytes (bytes : List Nat) :
    Option (List Nat × List Nat × List Nat × List Nat) :=
  if bytes.length < 32 then none
  else
    let rng_len := fromLE (bytes.take 8)
    let layers_len := fromLE ((bytes.drop 8).take 8)
    let pks_len := fromLE ((bytes.drop 16).take 8)
    let distr_len := fromLE ((bytes.drop 24).take 8)
    let rest := bytes.drop 32
    if rest.length < rng_len + (layers_len + (pks_len + distr_len)) then none
    else
      some (rest.take rng_len,
        (rest.drop rng_len).take layers_len,
        ((rest.drop rng_len).drop layers_len).take pks_len,
        (((rest.drop rng_len).drop layers_len).drop pks_len).take distr_len)

/-- The layout the claim describes, for comparison: each section
immediately prefixed by its own `u64 LE` length. -/
def store_state_bytes_spec (r l p d : List Nat) : List Nat :=
  leBytes 8 r.length ++ (r ++ (leBytes 8 l.length ++ (l
    ++ (leBytes 8 p.length ++ (p ++ (leBytes 8 d.length ++ d))))))

theorem leBytes_length (w n : Nat) : (leBytes w n).length = w := by
  induction w generalizing n with
  | zero => rfl
  | succ w ih => simp [leBytes, ih]

theorem fromLE_leBytes (w n : Nat) : fromLE (leBytes w n) = n % 256 ^ w := by
  induction w generalizing n with
  | zero => simp [leBytes, fromLE, Nat.mod_one]
  | succ w ih =>
    have h1 : fromLE (leBytes (w + 1) n) = n % 256 + 256 * fromLE (leBytes w (n / 256)) := rfl
    rw [h1, ih, pow_succ']
    exact Nat.mod_mul.symm

theorem nth_append_left {α : Type} (d : α) :
    ∀ (l1 l2 : List α) (i : Nat), i < l1.length → nth (l1 ++ l2) i d = nth l1 i d
  | [], _, i, h => by simp at h
  | a :: l1, l2, 0, _ => rfl
  | a :: l1, l2, i + 1, h =>
    nth_append_left d l1 l2 i (by simpa using h)

theorem nth_append_right {α : Type} (d : α) :
    ∀ (l1 l2 : List α) (i : Nat), l1.length ≤ i →
      nth (l1 ++ l2) i d = nth l2 (i - l1.length) d
  | [], _, i, _ => by simp [nth]
  | a :: l1, l2, 0, h => by simp at h
  | a :: l1, l2, i + 1, h => by
    have := nth_append_right d l1 l2 i (by simpa using h)
    simpa [nth] using this

theorem nth_map {α β : Type} (f : α → β) (d : α) :
    ∀ (l : List α) (i : Nat), i < l.length → nth (l.map f) i (f d) = f (nth l i d)
  | [], i, h => by simp at h
  | a :: l, 0, _ => rfl
  | a :: l, i + 1, h => nth_map f d l i (by simpa using h)

theorem nth_replicate {α : Type} (d v : α) (n i : Nat) :
    nth (List.replicate n v) i d = if i < n then v else d := by
  induction n generalizing i with
  | zero => simp [nth]
  | succ n ih =>
    cases i with
    | zero => simp [List.replicate_succ, nth]
    | succ i => simp only [List.replicate_succ, nth, ih, Nat.succ_lt_succ_iff]

theorem nth_setNth_eq {α : Type} (d v : α) :
    ∀ (l : List α) (i : Nat), i < l.length → nth (setNth l i v) i d = v
  | [], i, h => by simp at h
  | a :: l, 0, _ => rfl
  | a :: l, i + 1, h => nth_setNth_eq d v l i (by simpa using h)

theorem nth_setNth_ne {α : Type} (d v : α) :
    ∀ (l : List α) (i j : Nat), i ≠ j → nth (setNth l i v) j d = nth l j d
  | [], _, _, _ => by simp [setNth]
  | a :: l, 0, 0, h => absurd rfl h
  | a :: l, 0, j + 1, _ => rfl
  | a :: l, i + 1, 0, _ => rfl
  | a :: l, i + 1, j + 1, h =>
    nth_setNth_ne d v l i j (fun hc => h (by omega))

theorem setNth_length {α : Type} (v : α) :
    ∀ (l : List α) (i : Nat), (setNth l i v).length = l.length
  | [], _ => rfl
  | _ :: l, 0 => rfl
  | a :: l, i + 1 => by simp [setNth, setNth_length v l i]

theorem combine_length (g : List Nat → List Nat) :
    ∀ cur : List (List Nat), (combine g cur).length = cur.length / 2
  | [] => by simp [combine]
  | [_] => by simp [combine]
  | x :: y :: rest => by
    have := combine_length g rest
    simp only [combine, List.length_cons, this]
    omega

theorem nth_combine (g : List Nat → List Nat) :
    ∀ (cur : List (List Nat)) (j : Nat), 2 * j + 1 < cur.length →
      nth (combine g cur) j [] = g (nth cur (2 * j) [] ++ nth cur (2 * j + 1) [])
  | [], _, h => by simp at h
  | [_], _, h => by simp at h
  | x :: y :: rest, 0, _ => rfl
  | x :: y :: rest, j + 1, h => by
    have h2 : 2 * j + 1 < rest.length := by
      simp only [List.length_cons] at h; omega
    have e2 : 2 * (j + 1) = 2 * j + 1 + 1 := by omega
    rw [e2]
    show nth (combine g rest) j [] = g (nth rest (2 * j) [] ++ nth rest (2 * j + 1) [])
    exact nth_combine g rest j h2

theorem buildLevels_length (g : List Nat → List Nat) :
    ∀ (k : Nat) (cur : List (List Nat)), (buildLevels g k cur).length = k + 1
  | 0, _ => rfl
  | k + 1, cur => by
    simp [buildLevels, buildLevels_length g k (combine g cur)]

/-- `authAux` reads only layers `1 .. m` of the levels list. -/
theorem authAux_congr (A B : List (List (List Nat))) :
    ∀ (m i : Nat), (∀ l, 1 ≤ l → l ≤ m → nth A l [] = nth B l []) →
      authAux A m i = authAux B m i
  | 0, _, _ => rfl
  | m + 1, i, hc => by
    have h1 : nth A (m + 1) [] = nth B (m + 1) [] := hc (m + 1) (by omega) (by omega)
    have h2 := authAux_congr A B m (if i % 2 = 0 then (i + 1) / 2 else (i - 1) / 2)
      (fun l hl1 hl2 => hc l hl1 (by omega))
    by_cases hp : i % 2 = 0 <;>
      simp only [authAux, getNode, h1, hp, if_true, if_false, reduceIte] <;>
      [exact congrArg _ (by simpa [hp] using h2); exact congrArg _ (by simpa [hp] using h2)]

/-- Correctness of the auth path: folding `foldVerify` from a leaf-layer
value along the path recomputes the root node. -/
theorem fold_auth (g : List Nat → List Nat) :
    ∀ (k : Nat) (cur : List (List Nat)) (i : Nat),
      cur.length = 2 ^ k → i < 2 ^ k →
      foldVerify g i (nth cur i []) (authAux (buildLevels g k cur) k i)
        = getNode (buildLevels g k cur) 0 0 := by
  intro k
  induction k with
  | zero =>
    intro cur i _ hi
    have hi0 : i = 0 := by simpa using hi
    subst hi0
    rfl
  | succ k ih =>
    intro cur i hlen hi
    have hp : (2 : Nat) ^ (k + 1) = 2 * 2 ^ k := by ring
    have hL : (buildLevels g k (combine g cur)).length = k + 1 :=
      buildLevels_length g k _
    have hcomb : (combine g cur).length = 2 ^ k := by
      rw [combine_length, hlen, hp]; omega
    have hlvl : nth (buildLevels g k (combine g cur) ++ [cur]) (k + 1)
        ([] : List (List Nat)) = cur := by
      rw [nth_append_right _ _ _ _ (by omega), hL]
      simp [nth]
    have hlow : ∀ l, l ≤ k →
        nth (buildLevels g k (combine g cur) ++ [cur]) l ([] : List (List Nat))
          = nth (buildLevels g k (combine g cur)) l [] :=
      fun l hl => nth_append_left _ _ _ l (by omega)
    -- the sibling index of the source: even → +1, odd → −1
    have hstep : authAux (buildLevels g (k + 1) cur) (k + 1) i
        = nth cur (if i % 2 = 0 then i + 1 else i - 1) []
          :: authAux (buildLevels g k (combine g cur)) k
               ((if i % 2 = 0 then i + 1 else i - 1) / 2) := by
      show getNode (buildLevels g k (combine g cur) ++ [cur]) (k + 1)
            (if i % 2 = 0 then i + 1 else i - 1)
          :: authAux (buildLevels g k (combine g cur) ++ [cur]) k
               ((if i % 2 = 0 then i + 1 else i - 1) / 2) = _
      congr 1
      · show nth (nth (buildLevels g k (combine g cur) ++ [cur]) (k + 1) []) _ [] = _
        rw [hlvl]
      · exact authAux_congr _ _ k _ (fun l hl1 hl2 => hlow l hl2)
    have hroot : getNode (buildLevels g (k + 1) cur) 0 0
        = getNode (buildLevels g k (combine g cur)) 0 0 := by
      show nth (nth (buildLevels g k (combine g cur) ++ [cur]) 0 []) 0 [] = _
      rw [hlow 0 (by omega)]
      rfl
    rw [hstep, hroot]
    rcases Nat.even_or_odd i with he | ho
    · have hi2 : i % 2 = 0 := Nat.even_iff.mp he
      have hsib : (if i % 2 = 0 then i + 1 else i - 1) = i + 1 := by rw [hi2]; rfl
      have hfold : foldVerify g i (nth cur i [])
          (nth cur (i + 1) [] :: authAux (buildLevels g k (combine g cur)) k ((i + 1) / 2))
          = foldVerify g (i / 2) (g (nth cur i [] ++ nth cur (i + 1) []))
              (authAux (buildLevels g k (combine g cur)) k ((i + 1) / 2)) := by
        show foldVerify g (i / 2)
            (if i % 2 = 1 then g (nth cur (i + 1) [] ++ nth cur i [])
             else g (nth cur i [] ++ nth cur (i + 1) [])) _ = _
        rw [if_neg (by omega)]
      have hv : g (nth cur i [] ++ nth cur (i + 1) []) = nth (combine g cur) (i / 2) [] := by
        rw [nth_combine g cur (i / 2) (by rw [hlen]; omega)]
        have e1 : 2 * (i / 2) = i := by omega
        rw [e1]
      have e3 : (i + 1) / 2 = i / 2 := by omega
      rw [hsib, hfold, hv, e3]
      exact ih (combine g cur) (i / 2) hcomb (by omega)
    · have hi2 : i % 2 = 1 := Nat.odd_iff.mp ho
      have hsib : (if i % 2 = 0 then i + 1 else i - 1) = i - 1 := by rw [hi2]; rfl
      have hfold : foldVerify g i (nth cur i [])
          (nth cur (i - 1) [] :: authAux (buildLevels g k (combine g cur)) k ((i - 1) / 2))
          = foldVerify g (i / 2) (g (nth cur (i - 1) [] ++ nth cur i []))
              (authAux (buildLevels g k (combine g cur)) k ((i - 1) / 2)) := by
        show foldVerify g (i / 2)
            (if i % 2 = 1 then g (nth cur (i - 1) [] ++ nth cur i [])
             else g (nth cur i [] ++ nth cur (i - 1) [])) _ = _
        rw [if_pos hi2]
      have hv : g (nth cur (i - 1) [] ++ nth cur i []) = nth (combine g cur) (i / 2) [] := by
        rw [nth_combine g cur (i / 2) (by rw [hlen]; omega)]
        have e1 : 2 * (i / 2) = i - 1 := by omega
        have e2 : 2 * (i / 2) + 1 = i := by omega
        rw [e2, e1]
      have e3 : (i - 1) / 2 = i / 2 := by omega
      rw [hsib, hfold, hv, e3]
      exact ih (combine g cur) (i / 2) hcomb (by omega)

/-! ### HORST round-trip support -/

theorem nth_map' {α β : Type} (f : α → β) (d1 : β) (d2 : α) :
    ∀ (l : List α) (i : Nat), i < l.length → nth (l.map f) i d1 = f (nth l i d2)
  | [], i, h => by simp at h
  | a :: l, 0, _ => rfl
  | a :: l, i + 1, h => nth_map' f d1 d2 l i (by simpa using h)

theorem nth_mem_or_eq {α : Type} (d : α) :
    ∀ (l : List α) (i : Nat), nth l i d ∈ l ∨ nth l i d = d
  | [], _ => Or.inr rfl
  | a :: l, 0 => Or.inl (by simp [nth])
  | a :: l, i + 1 => by
    rcases nth_mem_or_eq d l i with h | h
    · exact Or.inl (by simp [nth, h])
    · exact Or.inr h

theorem combine_forall {g : List Nat → List Nat} {P : List Nat → Prop}
    (hg : ∀ x, P (g x)) :
    ∀ cur, ∀ x ∈ combine g cur, P x
  | [], x, hx => by simp [combine] at hx
  | [_], x, hx => by simp [combine] at hx
  | a :: b :: rest, x, hx => by
    rcases (by simpa [combine] using hx : x = g (a ++ b) ∨ x ∈ combine g rest) with h | h
    · exact h ▸ hg _
    · exact combine_forall hg rest x h

theorem buildLevels_forall {g : List Nat → List Nat} {P : List Nat → Prop}
    (hg : ∀ x, P (g x)) :
    ∀ (k : Nat) (cur : List (List Nat)), (∀ x ∈ cur, P x) →
      ∀ lv ∈ buildLevels g k cur, ∀ x ∈ lv, P x
  | 0, cur, hcur, lv, hlv, x, hx => by
    simp [buildLevels] at hlv
    exact hcur x (hlv ▸ hx)
  | k + 1, cur, hcur, lv, hlv, x, hx => by
    rcases (by simpa [buildLevels] using hlv :
        lv ∈ buildLevels g k (combine g cur) ∨ lv = cur) with h | h
    · exact buildLevels_forall hg k (combine g cur) (combine_forall hg cur) lv h x hx
    · exact hcur x (h ▸ hx)

/-- Every node reached by `getNode` in a `buildLevels` tree has length
at most `N` when the hash truncates to `N` bytes. -/
theorem getNode_length_le (th : List Nat → List Nat) (N : Nat)
    (k : Nat) (cur : List (List Nat)) (hcur : ∀ x ∈ cur, x.length ≤ N)
    (l i : Nat) :
    (getNode (buildLevels (hashB th N) k cur) l i).length ≤ N := by
  have hall := buildLevels_forall (g := hashB th N) (P := fun x => x.length ≤ N)
    (fun x => by simpa [hashB] using List.length_take_le N (th x)) k cur hcur
  unfold getNode
  rcases nth_mem_or_eq ([] : List (List Nat)) (buildLevels (hashB th N) k cur) l with hl | hl
  · rcases nth_mem_or_eq ([] : List Nat) (nth (buildLevels (hashB th N) k cur) l []) i
      with hi | hi
    · exact hall _ hl _ hi
    · simp [hi]
  · rw [hl]; simp [nth]

theorem foldVerify_congr {g1 g2 : List Nat → List Nat} (hg : ∀ x, g1 x = g2 x) :
    ∀ (p : List (List Nat)) (i : Nat) (v : List Nat),
      foldVerify g1 i v p = foldVerify g2 i v p
  | [], _, _ => rfl
  | s :: rest, i, v => by
    simp only [foldVerify, hg]
    exact foldVerify_congr hg rest (i / 2) _

theorem genBlocks_length (n : Nat) :
    ∀ (t : Nat) (r : RngState), (genBlocks n t r).1.length = t
  | 0, _ => rfl
  | t + 1, r => by simp [genBlocks, genBlocks_length n t]

theorem log2fAux_pow : ∀ (fuel τ : Nat), 2 ^ τ ≤ fuel → log2fAux fuel (2 ^ τ) = τ
  | fuel, 0, _ => by
    cases fuel with
    | zero => rfl
    | succ f => simp [log2fAux]
  | 0, τ + 1, h => by
    have := Nat.one_le_two_pow (n := τ + 1)
    omega
  | fuel + 1, τ + 1, h => by
    have hge : 2 ≤ 2 ^ (τ + 1) := by
      calc 2 = 2 ^ 1 := by omega
        _ ≤ 2 ^ (τ + 1) := Nat.pow_le_pow_right (by omega) (by omega)
    have hdiv : 2 ^ (τ + 1) / 2 = 2 ^ τ := by
      rw [pow_succ]
      omega
    have hfuel : 2 ^ τ ≤ fuel := by
      have h1 : (1 : Nat) ≤ 2 ^ τ := Nat.one_le_two_pow
      have h2 : 2 ^ (τ + 1) = 2 * 2 ^ τ := by rw [pow_succ]; ring
      omega
    simp only [log2fAux, if_pos hge, hdiv, log2fAux_pow fuel τ hfuel]

theorem log2f_pow (τ : Nat) : log2f (2 ^ τ) = τ :=
  log2fAux_pow (2 ^ τ) τ (Nat.le_refl _)

theorem clog2fAux_pow : ∀ (fuel τ : Nat), 2 ^ τ ≤ fuel → clog2fAux fuel (2 ^ τ) = τ
  | fuel, 0, _ => by
    cases fuel with
    | zero => rfl
    | succ f => simp [clog2fAux]
  | 0, τ + 1, h => by
    have := Nat.one_le_two_pow (n := τ + 1)
    omega
  | fuel + 1, τ + 1, h => by
    have hge : 2 ≤ 2 ^ (τ + 1) := by
      calc 2 = 2 ^ 1 := by omega
        _ ≤ 2 ^ (τ + 1) := Nat.pow_le_pow_right (by omega) (by omega)
    have hdiv : (2 ^ (τ + 1) + 1) / 2 = 2 ^ τ := by
      have h2 : 2 ^ (τ + 1) = 2 * 2 ^ τ := by rw [pow_succ]; ring
      omega
    have hfuel : 2 ^ τ ≤ fuel := by
      have h1 : (1 : Nat) ≤ 2 ^ τ := Nat.one_le_two_pow
      have h2 : 2 ^ (τ + 1) = 2 * 2 ^ τ := by rw [pow_succ]; ring
      omega
    simp only [clog2fAux, if_pos hge, hdiv, clog2fAux_pow fuel τ hfuel]

theorem clog2f_pow (τ : Nat) : clog2f (2 ^ τ) = τ :=
  clog2fAux_pow (2 ^ τ) τ (Nat.le_refl _)

theorem pow2Check_pow (τ : Nat) : pow2Check (2 ^ τ) = true := by
  unfold pow2Check
  rw [clog2f_pow, log2f_pow]
  simp

/-- `MerkleTree::new` on `2 ^ τ` leaves succeeds and builds the layered
tree over the hashed leaves. -/
theorem merkle_new_pow (th : List Nat → List Nat) (N τ : Nat)
    (leaves : List (List Nat)) (hlen : leaves.length = 2 ^ τ) :
    MerkleTree.new th N leaves
      = some { data := buildLevels (hashB th N) τ (leaves.map (hashB th N)),
               t := 2 ^ τ, h := τ + 1, size := 2 ^ (τ + 1) - 1 } := by
  unfold MerkleTree.new
  rw [hlen, pow2Check_pow]
  have hne : 2 ^ τ ≠ 0 := by positivity
  simp only [if_true, hne, if_false, log2f_pow, reduceIte]

theorem bitsFold_lt :
    ∀ (bits : List Nat) (acc : Nat), (∀ b ∈ bits, b ≤ 1) →
      bits.foldl (fun a b => 2 * a + b) acc < (acc + 1) * 2 ^ bits.length
  | [], acc, _ => by simp
  | b :: rest, acc, h => by
    have hb : b ≤ 1 := h b (by simp)
    have ih := bitsFold_lt rest (2 * acc + b) (fun x hx => h x (by simp [hx]))
    have h2 : (2 * acc + b + 1) * 2 ^ rest.length ≤ (acc + 1) * 2 ^ (rest.length + 1) := by
      rw [pow_succ]
      nlinarith [Nat.pos_pow_of_pos rest.length (show 0 < 2 by omega)]
    calc List.foldl (fun a b => 2 * a + b) (2 * acc + b) rest
        < (2 * acc + b + 1) * 2 ^ rest.length := ih
      _ ≤ (acc + 1) * 2 ^ (rest.length + 1) := h2

theorem get_segment_indices_lt (K TAU : Nat) (mhash : List Nat) :
    ∀ c ∈ get_segment_indices K TAU mhash, c < 2 ^ TAU := by
  intro c hc
  unfold get_segment_indices at hc
  rcases List.mem_map.mp hc with ⟨i, _, hval⟩
  subst hval
  set bits := ((mhash.flatMap byteToBits).drop (i * TAU)).take TAU with hbits
  have hb1 : ∀ b ∈ bits, b ≤ 1 := by
    intro b hb
    have hb2 : b ∈ mhash.flatMap byteToBits :=
      List.drop_subset _ _ (List.take_subset _ _ hb)
    rcases List.mem_flatMap.mp hb2 with ⟨y, _, hy⟩
    rcases List.mem_map.mp hy with ⟨k, _, hk⟩
    subst hk
    have := Nat.mod_lt (y / 2 ^ (7 - k)) (show 0 < 2 by omega)
    omega
  have hlt := bitsFold_lt bits 0 hb1
  have hlen : bits.length ≤ TAU := by
    rw [hbits]
    simpa using Nat.min_le_left TAU _
  calc bitsToNat bits < (0 + 1) * 2 ^ bits.length := hlt
    _ ≤ 2 ^ TAU := by simpa using Nat.pow_le_pow_right (by omega) hlen

/-- Checking a list of signature segments built (as `sign` builds them)
from the index list itself. -/
theorem verifySegments_map (th : List Nat → List Nat) (N : Nat) (pk : List Nat)
    (mkSeg : Nat → List (List Nat)) :
    ∀ ixs : List Nat,
      (∀ c ∈ ixs, ((segmentRoot th c (mkSeg c)).take N == pk) = true) →
      verifySegments th N pk ixs (ixs.map mkSeg) = true
  | [], _ => rfl
  | c :: rest, h => by
    have h1 := h c (by simp)
    have h2 := verifySegments_map th N pk mkSeg rest (fun x hx => h x (by simp [hx]))
    show (((segmentRoot th c (mkSeg c)).take N == pk)
        && verifySegments th N pk rest (rest.map mkSeg)) = true
    rw [h1, h2]
    rfl

/-- Checking a list of sign-built segments against a DIFFERENT root: the
first segment already fails. -/
theorem verifySegments_map_ne (th : List Nat → List Nat) (N : Nat)
    (pk pk2 : List Nat) (hne : pk2 ≠ pk) (mkSeg : Nat → List (List Nat)) :
    ∀ ixs : List Nat, ixs ≠ [] →
      (∀ c ∈ ixs, (segmentRoot th c (mkSeg c)).take N = pk2) →
      verifySegments th N pk ixs (ixs.map mkSeg) = false
  | [], h, _ => absurd rfl h
  | c :: rest, _, h => by
    show (((segmentRoot th c (mkSeg c)).take N == pk)
        && verifySegments th N pk rest (rest.map mkSeg)) = false
    rw [h c (by simp)]
    have hb : (pk2 == pk) = false := by
      rw [beq_eq_false_iff_ne]
      exact hne
    rw [hb]
    rfl

/-- For a generated keypair, the recomputed root of any sign-built
segment at leaf `c < 2 ^ TAU` is exactly the keypair's public key. -/
theorem gen_segment_root (N TAU : Nat) (th : List Nat → List Nat)
    (hlen : ∀ x, (th x).length = N) (rng : RngState) (c : Nat) (hc : c < 2 ^ TAU) :
    (segmentRoot th c
        (nth (gen_key_pair N TAU th rng).1.secret.data c []
          :: ((gen_key_pair N TAU th rng).1.secret.tree.get_auth_path c).getD [])).take N
      = (gen_key_pair N TAU th rng).1.public := by
  have hB : ∀ x, hashB th N x = th x := by
    intro x
    unfold hashB
    rw [← hlen x]
    exact List.take_length (th x)
  set data := (genBlocks N (2 ^ TAU) rng).1 with hdef
  have hdata : data.length = 2 ^ TAU := genBlocks_length N (2 ^ TAU) rng
  have hnew := merkle_new_pow th N TAU data hdata
  have htree : (gen_key_pair N TAU th rng).1.secret.tree
      = { data := buildLevels (hashB th N) TAU (data.map (hashB th N)),
          t := 2 ^ TAU, h := TAU + 1, size := 2 ^ (TAU + 1) - 1 } := by
    show (MerkleTree.new th N data).getD defaultTree = _
    rw [hnew]
    rfl
  have hsd : (gen_key_pair N TAU th rng).1.secret.data = data := rfl
  have hpk : (gen_key_pair N TAU th rng).1.public
      = getNode (buildLevels (hashB th N) TAU (data.map (hashB th N))) 0 0 := by
    show ((MerkleTree.new th N data).getD defaultTree).root = _
    rw [hnew]
    rfl
  rw [hsd, htree, hpk]
  have hap : (MerkleTree.get_auth_path
      { data := buildLevels (hashB th N) TAU (data.map (hashB th N)),
        t := 2 ^ TAU, h := TAU + 1, size := 2 ^ (TAU + 1) - 1 } c)
      = some (authAux (buildLevels (hashB th N) TAU (data.map (hashB th N))) TAU c) := by
    unfold MerkleTree.get_auth_path
    rw [if_neg (by simp; omega)]
    simp
  rw [hap]
  have hstart : th (nth data c []) = nth (data.map (hashB th N)) c [] := by
    rw [nth_map' (hashB th N) [] [] data c (by omega)]
    rw [hB]
  show (foldVerify th c (th (nth data c []))
      (authAux (buildLevels (hashB th N) TAU (data.map (hashB th N))) TAU c)).take N = _
  rw [foldVerify_congr (fun x => (hB x).symm), hstart]
  have hcur : (data.map (hashB th N)).length = 2 ^ TAU := by
    rw [List.length_map]; exact hdata
  rw [fold_auth (hashB th N) TAU (data.map (hashB th N)) c hcur hc]
  exact List.take_of_length_le (getNode_length_le th N TAU _
    (fun x hx => by
      rcases List.mem_map.mp hx with ⟨y, _, hy⟩
      subst hy
      simpa [hashB] using List.length_take_le N (th y)) 0 0)

/-- C1: HORST round-trip.  For every message and every keypair generated by
`gen_key_pair` from a seeded CSPRNG (the parameters, including the
production `K = 32`, `τ = 16`, are universally quantified, with the
`check_params` guarantee that the tree hash outputs `N` bytes),
`verify(msg, sign(msg, sk), pk)` is `true` for the keypair's own public
key, and `false` when the signature was produced by a different generated
keypair whose public key differs. -/
theorem claim_C1_horst_roundtrip (N K TAU M : Nat) (th mh : List Nat → List Nat)
    (rngA rngE : RngState) (msg : List Nat)
    (hlen : ∀ x, (th x).length = N) (hK : 0 < K)
    (hne : (gen_key_pair N TAU th rngE).1.public ≠ (gen_key_pair N TAU th rngA).1.public) :
    horst_verify N K TAU M th mh msg
        (horst_sign K TAU M mh msg (gen_key_pair N TAU th rngA).1.secret)
        (gen_key_pair N TAU th rngA).1.public = true
    ∧ horst_verify N K TAU M th mh msg
        (horst_sign K TAU M mh msg (gen_key_pair N TAU th rngE).1.secret)
        (gen_key_pair N TAU th rngA).1.public = false := by
  have hidx := get_segment_indices_lt K TAU ((mh msg).take M)
  have hlen_idx : (get_segment_indices K TAU ((mh msg).take M)).length = K := by
    simp [get_segment_indices]
  constructor
  · show verifySegments th N (gen_key_pair N TAU th rngA).1.public
        (get_segment_indices K TAU ((mh msg).take M))
        ((get_segment_indices K TAU ((mh msg).take M)).map _) = true
    apply verifySegments_map
    intro c hc
    rw [gen_segment_root N TAU th hlen rngA c (hidx c hc)]
    exact beq_self_eq_true _
  · show verifySegments th N (gen_key_pair N TAU th rngA).1.public
        (get_segment_indices K TAU ((mh msg).take M))
        ((get_segment_indices K TAU ((mh msg).take M)).map _) = false
    apply verifySegments_map_ne th N _ _ hne
    · intro hnil
      rw [hnil] at hlen_idx
      simp at hlen_idx
      omega
    · intro c hc
      exact gen_segment_root N TAU th hlen rngE c (hidx c hc)

/-- Witness for C1 at concrete parameters (`N = 1`, `K = 1`, `τ = 1`, two
seeded streams giving distinct public keys). -/
theorem claim_C1_witness :
    (gen_key_pair 1 1 (fun y => [y.sum % 256]) ⟨fun _ => 1, 0⟩).1.public
        ≠ (gen_key_pair 1 1 (fun y => [y.sum % 256]) ⟨fun _ => 0, 0⟩).1.public
    ∧ (horst_verify 1 1 1 0 (fun y => [y.sum % 256]) (fun _ => []) [7]
        (horst_sign 1 1 0 (fun _ => []) [7]
          (gen_key_pair 1 1 (fun y => [y.sum % 256]) ⟨fun _ => 0, 0⟩).1.secret)
        (gen_key_pair 1 1 (fun y => [y.sum % 256]) ⟨fun _ => 0, 0⟩).1.public = true
      ∧ horst_verify 1 1 1 0 (fun y => [y.sum % 256]) (fun _ => []) [7]
        (horst_sign 1 1 0 (fun _ => []) [7]
          (gen_key_pair 1 1 (fun y => [y.sum % 256]) ⟨fun _ => 1, 0⟩).1.secret)
        (gen_key_pair 1 1 (fun y => [y.sum % 256]) ⟨fun _ => 0, 0⟩).1.public = false) :=
  ⟨by decide,
   claim_C1_horst_roundtrip 1 1 1 0 (fun y => [y.sum % 256]) (fun _ => [])
     ⟨fun _ => 0, 0⟩ ⟨fun _ => 1, 0⟩ [7] (fun _ => rfl) (by omega) (by decide)⟩

/-! ## Claim C8: Merkle-tree edge cases -/

/-- C8 counterexample: a `MerkleTree` built from an empty leaf sequence
(`T = 0`) is NOT rejected at construction: the power-of-two assertion
passes (both `f32` casts of `log2(0) = -inf` saturate to `0`) and the
constructor returns a degenerate one-node tree. -/
theorem claim_C8_counterexample :
    (MerkleTree.new (fun x => [x.sum % 256]) 32 []).isSome = true := by
  rfl

/-- C8 (amended): `T = 0` is accepted at construction (a degenerate
single-zero-node tree) but every `auth_path` call on it fails fatally;
`T = 1` succeeds and `auth_path(0)` is the empty path; and
`auth_path(leaf_idx)` fails fatally whenever `leaf_idx ≥ T`. -/
theorem claim_C8_merkle_edge_cases (th : List Nat → List Nat) (B : Nat) (leaf : List Nat) :
    (∀ idx : Nat, ((MerkleTree.new th B []).getD defaultTree).get_auth_path idx = none)
    ∧ (MerkleTree.new th B []).isSome = true
    ∧ (MerkleTree.new th B [leaf]).isSome = true
    ∧ ((MerkleTree.new th B [leaf]).getD defaultTree).get_auth_path 0 = some []
    ∧ ∀ (leaves : List (List Nat)) (mt : MerkleTree) (idx : Nat),
        MerkleTree.new th B leaves = some mt → leaves.length ≤ idx →
        mt.get_auth_path idx = none := by
  refine ⟨?_, rfl, rfl, ?_, ?_⟩
  · intro idx
    have h0 : idx ≥ ((MerkleTree.new th B []).getD defaultTree).t := Nat.zero_le idx
    unfold MerkleTree.get_auth_path
    rw [if_pos h0]
  · have h0 : ¬ (0 ≥ ((MerkleTree.new th B [leaf]).getD defaultTree).t) := by
      show ¬ (0 ≥ 1)
      omega
    unfold MerkleTree.get_auth_path
    rw [if_neg h0]
    rfl
  intro leaves mt idx hnew hge
  unfold MerkleTree.new at hnew
  by_cases hp : pow2Check leaves.length
  · rw [if_pos hp] at hnew
    have ht : mt.t = leaves.length := by
      cases hnew
      rfl
    unfold MerkleTree.get_auth_path
    rw [if_pos]
    omega
  · rw [if_neg hp] at hnew
    exact absurd hnew (by simp)

/-- Witness for C8: the out-of-range branch at a concrete one-leaf tree
and the degenerate `T = 0` tree. -/
theorem claim_C8_witness :
    ((MerkleTree.new (fun x => [x.sum % 256]) 1 [[5]]).getD defaultTree).get_auth_path 2 = none
    ∧ ((MerkleTree.new (fun x => [x.sum % 256]) 1 []).getD defaultTree).get_auth_path 7 = none :=
  ⟨(claim_C8_merkle_edge_cases (fun x => [x.sum % 256]) 1 [5]).2.2.2.2 [[5]]
      ((MerkleTree.new (fun x => [x.sum % 256]) 1 [[5]]).getD defaultTree) 2
      (by decide) (by decide),
   (claim_C8_merkle_edge_cases (fun x => [x.sum % 256]) 1 [5]).1 7⟩

/-! ## Claims C5, C10, C2 -/

/-- C5 (code evidence): for every byte sequence that does not deserialize
into a `SignedBlock`, `verify` crashes — the
`bincode::deserialize(..).expect("Should be deserializable!")` panics —
instead of returning a recoverable `MalformedBlock` error as the spec
requires. -/
theorem claim_C5_malformed_crash (N K TAU M : Nat) (th mh : List Nat → List Nat)
    (ser : List KeyWrapperM → List Nat) (xxh : List Nat → Nat) (maxPks : Nat)
    (dec : List Nat → Option SignedBlockM) (pks : List PkEntry) (data : List Nat)
    (now : Nat) (hdec : dec data = none) :
    verify_bytes N K TAU M th mh ser xxh maxPks dec pks data now
      = VerifyBytesResult.crash := by
  unfold verify_bytes
  rw [hdec]

/-- Witness for C5: the empty byte string with a decoder that rejects it. -/
theorem claim_C5_witness :
    ((fun _ : List Nat => (none : Option SignedBlockM)) [] = none)
    ∧ verify_bytes 1 1 1 0 (fun _ => []) (fun _ => []) (fun _ => []) (fun _ => 0) 1
        (fun _ => none) [] [] 0 = VerifyBytesResult.crash :=
  ⟨rfl, claim_C5_malformed_crash 1 1 1 0 (fun _ => []) (fun _ => []) (fun _ => [])
    (fun _ => 0) 1 (fun _ => none) [] [] 0 rfl⟩

/-- C10: frame condition on failed verification.  If the cache is
non-empty and the signature verifies against none of the cached keys,
`verify` returns the payload with `authenticated = false` and leaves the
public-key cache exactly unchanged. -/
theorem claim_C10_failed_verify_frame (N K TAU M : Nat) (th mh : List Nat → List Nat)
    (ser : List KeyWrapperM → List Nat) (xxh : List Nat → Nat) (maxPks : Nat)
    (pks : List PkEntry) (block : SignedBlockM) (now : Nat)
    (hne : pks ≠ [])
    (hall : ∀ e ∈ pks,
      horst_verify N K TAU M th mh (block.data ++ ser block.pub_keys)
        block.signature e.1 = false) :
    (verify_block N K TAU M th mh ser xxh maxPks pks block now).authenticated = false
    ∧ (verify_block N K TAU M th mh ser xxh maxPks pks block now).pks = pks
    ∧ (verify_block N K TAU M th mh ser xxh maxPks pks block now).payload
      = block.data := by
  have hval : pks.any
      (fun e => horst_verify N K TAU M th mh (block.data ++ ser block.pub_keys)
        block.signature e.1) = false := by
    rw [List.any_eq_false]
    intro e he
    rw [hall e he]
    simp
  have hemp : pks.isEmpty = false := by
    cases pks with
    | nil => exact absurd rfl hne
    | cons a l => rfl
  unfold verify_block
  simp only [hval, hemp, Bool.or_self, if_neg, Bool.false_eq_true, not_false_eq_true]
  exact ⟨trivial, trivial, trivial⟩

/-- Witness for C10: a one-entry cache, a block whose signature fails
against it. -/
theorem claim_C10_witness :
    ([(([9] : List Nat), 0, 0)] ≠ ([] : List PkEntry))
    ∧ (verify_block 1 1 1 0 (fun y => [y.sum % 256]) (fun _ => []) (fun _ => [])
        (fun _ => 0) 1 [([9], 0, 0)] ⟨[1], [[[5], [6]]], []⟩ 3).authenticated = false
    ∧ (verify_block 1 1 1 0 (fun y => [y.sum % 256]) (fun _ => []) (fun _ => [])
        (fun _ => 0) 1 [([9], 0, 0)] ⟨[1], [[[5], [6]]], []⟩ 3).pks = [([9], 0, 0)] :=
  ⟨by decide,
   (claim_C10_failed_verify_frame 1 1 1 0 (fun y => [y.sum % 256]) (fun _ => [])
      (fun _ => []) (fun _ => 0) 1 [([9], 0, 0)] ⟨[1], [[[5], [6]]], []⟩ 3
      (by decide) (by decide)).1,
   ((claim_C10_failed_verify_frame 1 1 1 0 (fun y => [y.sum % 256]) (fun _ => [])
      (fun _ => []) (fun _ => 0) 1 [([9], 0, 0)] ⟨[1], [[[5], [6]]], []⟩ 3
      (by decide) (by decide)).2).1⟩

/-- C2 counterexample: on an empty cache the block IS accepted and its
piggybacked keys are certified, but the returned `authenticated` flag is
FALSE (the code returns `valid`, which no empty loop over the empty cache
ever set). -/
theorem claim_C2_counterexample :
    (verify_block 1 1 1 0 (fun y => [y.sum % 256]) (fun _ => []) (fun _ => [])
        (fun _ => 0) 1 [] ⟨[9], [], [⟨[3], 0⟩]⟩ 5).authenticated = false
    ∧ (verify_block 1 1 1 0 (fun y => [y.sum % 256]) (fun _ => []) (fun _ => [])
        (fun _ => 0) 1 [] ⟨[9], [], [⟨[3], 0⟩]⟩ 5).pks = [([3], 5, 0)] := by
  decide

/-! ### Cache lemmas (certify / buckets / prune) -/

theorem nth_oob {α : Type} (d : α) :
    ∀ (l : List α) (i : Nat), l.length ≤ i → nth l i d = d
  | [], _, _ => rfl
  | a :: l, 0, h => by simp at h
  | a :: l, i + 1, h => nth_oob d l i (by simpa using h)

theorem containsKey_append_left (a b : List PkEntry) (k : List Nat)
    (h : containsKey a k = true) : containsKey (a ++ b) k = true := by
  unfold containsKey at *
  rw [List.any_append, h]
  rfl

theorem certify_mono (now : Nat) (k : List Nat) :
    ∀ (ks : List KeyWrapperM) (pks : List PkEntry),
      containsKey pks k = true → containsKey (certify now pks ks) k = true
  | [], pks, h => h
  | kw :: ks, pks, h => by
    show containsKey (List.foldl _
      (if containsKey pks kw.key then pks else pks ++ [(kw.key, now, kw.layer)]) ks) k = true
    by_cases hc : containsKey pks kw.key
    · rw [if_pos hc]
      exact certify_mono now k ks pks h
    · rw [if_neg hc]
      exact certify_mono now k ks _ (containsKey_append_left _ _ _ h)

theorem certify_contains (now : Nat) :
    ∀ (ks : List KeyWrapperM) (pks : List PkEntry),
      ∀ kw ∈ ks, containsKey (certify now pks ks) kw.key = true
  | [], _, kw, hkw => by simp at hkw
  | kw0 :: ks, pks, kw, hkw => by
    show containsKey (List.foldl _
      (if containsKey pks kw0.key then pks else pks ++ [(kw0.key, now, kw0.layer)]) ks)
        kw.key = true
    rcases List.mem_cons.mp hkw with he | ht
    · subst he
      by_cases hc : containsKey pks kw.key
      · rw [if_pos hc]
        exact certify_mono now kw.key ks pks hc
      · rw [if_neg hc]
        refine certify_mono now kw.key ks _ ?_
        unfold containsKey
        rw [List.any_append]
        simp [List.any]
    · by_cases hc : containsKey pks kw0.key
      · rw [if_pos hc]
        exact certify_contains now ks pks kw ht
      · rw [if_neg hc]
        exact certify_contains now ks _ kw ht

theorem countLayer_append (l : Nat) (a b : List PkEntry) :
    countLayer l (a ++ b) = countLayer l a + countLayer l b := by
  unfold countLayer
  rw [List.filter_append, List.length_append]

theorem certify_countLayer (now : Nat) (l : Nat) :
    ∀ (ks : List KeyWrapperM) (pks : List PkEntry),
      countLayer l (certify now pks ks)
        ≤ countLayer l pks + (ks.filter (fun kw => kw.layer == l)).length
  | [], pks => Nat.le_refl _
  | kw :: ks, pks => by
    have hstep : certify now pks (kw :: ks)
        = certify now (if containsKey pks kw.key then pks
            else pks ++ [(kw.key, now, kw.layer)]) ks := rfl
    rw [hstep]
    by_cases hc : containsKey pks kw.key
    · rw [if_pos hc]
      have := certify_countLayer now l ks pks
      have hf : (ks.filter (fun kw => kw.layer == l)).length
          ≤ ((kw :: ks).filter (fun kw => kw.layer == l)).length := by
        by_cases hl : (kw.layer == l) <;> simp [List.filter, hl]
      omega
    · rw [if_neg hc]
      have := certify_countLayer now l ks (pks ++ [(kw.key, now, kw.layer)])
      rw [countLayer_append] at this
      by_cases hl : (kw.layer == l)
      · have h1 : countLayer l [(kw.key, now, kw.layer)] = 1 := by
          simp [countLayer, List.filter, hl]
        have h2 : ((kw :: ks).filter (fun kw => kw.layer == l)).length
            = (ks.filter (fun kw => kw.layer == l)).length + 1 := by
          simp [List.filter, hl]
        omega
      · have h1 : countLayer l [(kw.key, now, kw.layer)] = 0 := by
          simp only [countLayer, List.filter, hl]
          rfl
        have h2 : ((kw :: ks).filter (fun kw => kw.layer == l)).length
            = (ks.filter (fun kw => kw.layer == l)).length := by
          simp [List.filter, hl]
        omega

theorem bucketStep_nth (fl : List (List (List Nat × Nat))) (e : PkEntry) (l : Nat) :
    nth (bucketStep fl e) l []
      = if e.2.2 = l then nth fl l [] ++ [(e.1, e.2.1)] else nth fl l [] := by
  unfold bucketStep
  have hlen : e.2.2 <
      (fl ++ List.replicate ((e.2.2 + 1) - fl.length)
        ([] : List (List Nat × Nat))).length := by
    rw [List.length_append, List.length_replicate]
    omega
  have hfl2 : ∀ j, nth (fl ++ List.replicate ((e.2.2 + 1) - fl.length)
      ([] : List (List Nat × Nat))) j [] = nth fl j [] := by
    intro j
    by_cases hj : j < fl.length
    · exact nth_append_left _ _ _ j hj
    · rw [nth_append_right _ _ _ j (by omega), nth_oob _ fl j (by omega),
        nth_replicate]
      split <;> rfl
  by_cases hl : e.2.2 = l
  · subst hl
    rw [if_pos rfl, nth_setNth_eq _ _ _ _ hlen, hfl2]
  · rw [if_neg hl, nth_setNth_ne _ _ _ _ _ hl, hfl2]

theorem bucketsFold_nth (l : Nat) :
    ∀ (pks : List PkEntry) (acc : List (List (List Nat × Nat))),
      nth (pks.foldl bucketStep acc) l []
        = nth acc l []
          ++ (pks.filter (fun e => e.2.2 == l)).map (fun e => (e.1, e.2.1))
  | [], acc => by simp [List.foldl]
  | e :: rest, acc => by
    show nth (rest.foldl bucketStep (bucketStep acc e)) l [] = _
    rw [bucketsFold_nth l rest (bucketStep acc e), bucketStep_nth]
    by_cases hl : e.2.2 = l
    · rw [if_pos hl]
      have hb : (e.2.2 == l) = true := by simp [hl]
      simp only [List.filter, hb, List.map, List.append_assoc, List.cons_append,
        List.nil_append]
    · rw [if_neg hl]
      have hb : (e.2.2 == l) = false := by simp [hl]
      simp only [List.filter, hb]

theorem bucketsOf_nth (pks : List PkEntry) (l : Nat) :
    nth (bucketsOf pks) l []
      = (pks.filter (fun e => e.2.2 == l)).map (fun e => (e.1, e.2.1)) := by
  unfold bucketsOf
  rw [bucketsFold_nth]
  rfl

theorem nth_eq_get {α : Type} (d : α) :
    ∀ (l : List α) (i : Nat) (h : i < l.length), nth l i d = l.get ⟨i, h⟩
  | a :: l, 0, _ => rfl
  | a :: l, i + 1, h => nth_eq_get d l i (by simpa using h)

/-- Every bucket equals the per-layer projection of the cache at its
index. -/
theorem mem_bucketsOf (pks : List PkEntry) (b : List (List Nat × Nat))
    (hb : b ∈ bucketsOf pks) :
    ∃ l, b = (pks.filter (fun e => e.2.2 == l)).map (fun e => (e.1, e.2.1)) := by
  rcases List.mem_iff_get.mp hb with ⟨⟨i, hi⟩, hget⟩
  refine ⟨i, ?_⟩
  rw [← bucketsOf_nth pks i, nth_eq_get _ _ i hi, hget]

theorem foldl_append_all_nil {α β : Type} (f : α → List β) :
    ∀ (bs : List α) (acc : List β), (∀ b ∈ bs, f b = []) →
      bs.foldl (fun acc b => acc ++ f b) acc = acc
  | [], acc, _ => rfl
  | b :: bs, acc, h => by
    show bs.foldl _ (acc ++ f b) = acc
    rw [h b (by simp), List.append_nil]
    exact foldl_append_all_nil f bs acc (fun x hx => h x (by simp [hx]))

/-- When every layer is within the bound, `prune_pks` removes nothing. -/
theorem prune_pks_no_removal (maxPerLayer : Nat) (pks : List PkEntry)
    (hb : ∀ l, countLayer l pks ≤ maxPerLayer) :
    prune_pks maxPerLayer pks = pks := by
  have hrem : removedOf maxPerLayer (bucketsOf pks) = [] := by
    unfold removedOf
    apply foldl_append_all_nil
    intro b hbmem
    rcases mem_bucketsOf pks b hbmem with ⟨l, hl⟩
    have hlen : b.length ≤ maxPerLayer := by
      rw [hl, List.length_map]
      exact hb l
    have : b.length - maxPerLayer = 0 := by omega
    rw [this]
    simp
  unfold prune_pks
  rw [hrem]
  rw [List.filter_eq_self]
  intro e _
  rfl

/-- C2 (amended): on an empty public-key cache, the block is accepted and
all its piggybacked keys are certified into the cache (all of them
retained whenever the block's per-layer key counts stay within the prune
bound), but the returned `authenticated` flag is FALSE — the code returns
`valid`, which the loop over the empty cache never set. -/
theorem claim_C2_tofu_bootstrap (N K TAU M : Nat) (th mh : List Nat → List Nat)
    (ser : List KeyWrapperM → List Nat) (xxh : List Nat → Nat) (maxPks : Nat)
    (block : SignedBlockM) (now : Nat)
    (hbound : ∀ l, (block.pub_keys.filter (fun kw => kw.layer == l)).length ≤ maxPks) :
    (verify_block N K TAU M th mh ser xxh maxPks [] block now).authenticated = false
    ∧ ∀ kw ∈ block.pub_keys,
        containsKey (verify_block N K TAU M th mh ser xxh maxPks [] block now).pks
          kw.key = true := by
  have hcert : ∀ l, countLayer l (certify now [] block.pub_keys) ≤ maxPks := by
    intro l
    have h1 := certify_countLayer now l block.pub_keys []
    have h2 := hbound l
    have h0 : countLayer l [] = 0 := rfl
    omega
  constructor
  · rfl
  · intro kw hkw
    have hpks : (verify_block N K TAU M th mh ser xxh maxPks [] block now).pks
        = prune_pks maxPks (certify now [] block.pub_keys) := rfl
    rw [hpks, prune_pks_no_removal maxPks _ hcert]
    exact certify_contains now block.pub_keys [] kw hkw

/-- Witness for C2 at a concrete block with one piggybacked key. -/
theorem claim_C2_witness :
    (verify_block 1 1 1 0 (fun y => [y.sum % 256]) (fun _ => []) (fun _ => [])
        (fun _ => 0) 1 [] ⟨[9], [], [⟨[3], 0⟩]⟩ 5).authenticated = false
    ∧ containsKey (verify_block 1 1 1 0 (fun y => [y.sum % 256]) (fun _ => [])
          (fun _ => []) (fun _ => 0) 1 [] ⟨[9], [], [⟨[3], 0⟩]⟩ 5).pks [3] = true := by
  have hb : ∀ l : Nat,
      (([(⟨[3], 0⟩ : KeyWrapperM)]).filter (fun kw => kw.layer == l)).length ≤ 1 := by
    intro l
    by_cases h : (0 : Nat) = l
    · subst h
      decide
    · have hf : ((⟨[3], 0⟩ : KeyWrapperM).layer == l) = false := by
        simpa using h
      simp [List.filter, hf]
  exact ⟨(claim_C2_tofu_bootstrap 1 1 1 0 (fun y => [y.sum % 256]) (fun _ => [])
      (fun _ => []) (fun _ => 0) 1 ⟨[9], [], [⟨[3], 0⟩]⟩ 5 hb).1,
    (claim_C2_tofu_bootstrap 1 1 1 0 (fun y => [y.sum % 256]) (fun _ => [])
      (fun _ => []) (fun _ => 0) 1 ⟨[9], [], [⟨[3], 0⟩]⟩ 5 hb).2 ⟨[3], 0⟩ (by simp)⟩

/-! ### Prune bound (C7) -/

theorem insByTs_perm (x : List Nat × Nat) :
    ∀ l : List (List Nat × Nat), (insByTs x l).Perm (x :: l)
  | [] => List.Perm.refl _
  | y :: ys => by
    unfold insByTs
    split
    · exact ((insByTs_perm x ys).cons y).trans (List.Perm.swap x y ys)
    · exact List.Perm.refl _

theorem sortByTs_perm : ∀ l : List (List Nat × Nat), (sortByTs l).Perm l
  | [] => List.Perm.refl _
  | x :: l => by
    show (insByTs x (sortByTs l)).Perm (x :: l)
    exact (insByTs_perm x (sortByTs l)).trans ((sortByTs_perm l).cons x)

theorem filter_length_mono {α : Type} (p q : α → Bool)
    (h : ∀ x, p x = true → q x = true) :
    ∀ l : List α, (l.filter p).length ≤ (l.filter q).length
  | [] => Nat.le_refl 0
  | a :: l => by
    have ih := filter_length_mono p q h l
    by_cases hp : p a
    · have hq := h a hp
      simp only [List.filter, hp, hq, List.length_cons]
      omega
    · by_cases hq : q a
      · simp only [List.filter, hq, List.length_cons]
        rw [Bool.not_eq_true] at hp
        simp only [hp]
        omega
      · rw [Bool.not_eq_true] at hp hq
        simp only [List.filter, hp, hq]
        omega

theorem filter_all_false {α : Type} (p : α → Bool) :
    ∀ l : List α, (∀ x ∈ l, p x = false) → l.filter p = []
  | [], _ => rfl
  | a :: l, h => by
    have ha := h a (by simp)
    simp only [List.filter, ha]
    exact filter_all_false p l (fun x hx => h x (by simp [hx]))

theorem foldl_append_mem_acc {α β : Type} (f : α → List β) (k : β) :
    ∀ (bs : List α) (acc : List β), k ∈ acc →
      k ∈ bs.foldl (fun acc b => acc ++ f b) acc
  | [], _, h => h
  | b :: bs, acc, h =>
    foldl_append_mem_acc f k bs (acc ++ f b) (List.mem_append.mpr (Or.inl h))

theorem foldl_append_mem {α β : Type} (f : α → List β) (k : β) :
    ∀ (bs : List α) (acc : List β) (b0 : α), b0 ∈ bs → k ∈ f b0 →
      k ∈ bs.foldl (fun acc b => acc ++ f b) acc
  | [], _, _, hb, _ => by simp at hb
  | b :: bs, acc, b0, hb, hk => by
    rcases List.mem_cons.mp hb with he | ht
    · subst he
      exact foldl_append_mem_acc f k bs (acc ++ f b0) (List.mem_append.mpr (Or.inr hk))
    · exact foldl_append_mem f k bs (acc ++ f b) b0 ht hk

theorem nth_mem {α : Type} (d : α) (l : List α) (i : Nat) (h : i < l.length) :
    nth l i d ∈ l := by
  rw [nth_eq_get d l i h]
  exact List.get_mem l i h

/-- Counting cache entries whose key avoids a removal list `R` equals the
same count on the `(key, timestamp)` bucket projection. -/
theorem filter_notin_map_length (pks : List PkEntry) (l : Nat) (R : List (List Nat)) :
    ((pks.filter (fun e => e.2.2 == l)).filter (fun e => !(R.contains e.1))).length
      = (((pks.filter (fun e => e.2.2 == l)).map (fun e => (e.1, e.2.1))).filter
          (fun pr => !(R.contains pr.1))).length := by
  rw [List.filter_map, List.length_map]
  congr 1

/-- Entries of `A ++ B` avoiding a removal list that covers all of `A`'s
keys number at most `B.length`. -/
theorem filter_notin_keys_append (R : List (List Nat)) (A B : List (List Nat × Nat))
    (hA : ∀ x ∈ A, R.contains x.1 = true) :
    ((A ++ B).filter (fun pr => !(R.contains pr.1))).length ≤ B.length := by
  rw [List.filter_append, List.length_append]
  have hnil : A.filter (fun pr => !(R.contains pr.1)) = [] := by
    apply filter_all_false
    intro x hx
    rw [hA x hx]
    rfl
  rw [hnil]
  simp only [List.length_nil, Nat.zero_add]
  exact List.length_filter_le _ _

/-- Of a sorted bucket `S`, at most `S.length - n` entries avoid the keys
of `S.take n`. -/
theorem filter_notin_take_length (S : List (List Nat × Nat)) (n : Nat) :
    (S.filter (fun pr => !(((S.take n).map Prod.fst).contains pr.1))).length
      ≤ S.length - n := by
  have h := filter_notin_keys_append ((S.take n).map Prod.fst) (S.take n) (S.drop n)
    (fun x hx => by
      have hm : x.1 ∈ (S.take n).map Prod.fst := List.mem_map_of_mem Prod.fst hx
      simpa using hm)
  rw [List.take_append_drop] at h
  calc (S.filter (fun pr => !(((S.take n).map Prod.fst).contains pr.1))).length
      ≤ (S.drop n).length := h
    _ = S.length - n := List.length_drop n S

theorem prune_pks_bound (m : Nat) (pks : List PkEntry) (l : Nat) :
    countLayer l (prune_pks m pks) ≤ m := by
  have hAfil : countLayer l (prune_pks m pks)
      = ((pks.filter (fun e => e.2.2 == l)).filter
          (fun e => !((removedOf m (bucketsOf pks)).contains e.1))).length := by
    unfold prune_pks countLayer
    rw [List.filter_filter, List.filter_filter]
    congr 1
    apply List.filter_congr
    intro e _
    exact Bool.and_comm _ _
  rw [hAfil]
  by_cases hl : l < (bucketsOf pks).length
  · set bkt := (pks.filter (fun e => e.2.2 == l)).map (fun e => (e.1, e.2.1)) with hbkt
    set R := ((sortByTs bkt).take (bkt.length - m)).map Prod.fst with hR
    have hbktnth : nth (bucketsOf pks) l [] = bkt := bucketsOf_nth pks l
    have hbmem : bkt ∈ bucketsOf pks := by
      rw [← hbktnth]
      exact nth_mem _ _ l hl
    have hsub : ∀ k : List Nat, R.contains k = true →
        (removedOf m (bucketsOf pks)).contains k = true := by
      intro k hk
      have hkmem : k ∈ R := by simpa using hk
      have hmem : k ∈ removedOf m (bucketsOf pks) := by
        unfold removedOf
        exact foldl_append_mem _ k (bucketsOf pks) [] bkt hbmem (hR ▸ hkmem)
      simpa using hmem
    have hB : ((pks.filter (fun e => e.2.2 == l)).filter
          (fun e => !((removedOf m (bucketsOf pks)).contains e.1))).length
        ≤ ((pks.filter (fun e => e.2.2 == l)).filter
            (fun e => !(R.contains e.1))).length := by
      apply filter_length_mono
      intro e he
      by_cases hcr : R.contains e.1 = true
      · rw [hsub e.1 hcr] at he
        simp at he
      · simp only [Bool.not_eq_true] at hcr
        rw [hcr]
        rfl
    have hC : ((pks.filter (fun e => e.2.2 == l)).filter
          (fun e => !(R.contains e.1))).length
        = (bkt.filter (fun pr => !(R.contains pr.1))).length := by
      rw [filter_notin_map_length pks l R, ← hbkt]
    have hperm : (bkt.filter (fun pr => !(R.contains pr.1))).length
        = ((sortByTs bkt).filter (fun pr => !(R.contains pr.1))).length :=
      ((sortByTs_perm bkt).filter _).length_eq.symm
    have hslen : (sortByTs bkt).length = bkt.length := (sortByTs_perm bkt).length_eq
    have hsplit : ((sortByTs bkt).filter (fun pr => !(R.contains pr.1))).length
        ≤ (sortByTs bkt).length - (bkt.length - m) := by
      rw [hR]
      exact filter_notin_take_length (sortByTs bkt) (bkt.length - m)
    omega
  · have h0 : (pks.filter (fun e => e.2.2 == l)).map (fun e => (e.1, e.2.1)) = [] := by
      rw [← bucketsOf_nth pks l]
      exact nth_oob _ _ l (by omega)
    have h0' : pks.filter (fun e => e.2.2 == l) = [] := List.map_eq_nil_iff.mp h0
    rw [h0']
    simp

/-- C7 counterexample: with two same-layer keys sharing a timestamp and a
per-layer bound of 1, the key the code evicts is the one that comes first
in the cache's (unspecified) iteration order — flipping the order flips
the surviving key — whereas the claimed byte-order tie-break always
evicts the byte-wise smaller key `[0]` and keeps `[1]`. -/
theorem claim_C7_counterexample :
    prune_pks 1 [([1], 5, 0), ([0], 5, 0)] = [([0], 5, 0)]
    ∧ prune_pks 1 [([0], 5, 0), ([1], 5, 0)] = [([1], 5, 0)]
    ∧ prune_pks_spec 1 [([1], 5, 0), ([0], 5, 0)] = [([1], 5, 0)]
    ∧ prune_pks_spec 1 [([0], 5, 0), ([1], 5, 0)] = [([1], 5, 0)] := by
  decide

/-- C7 (amended): after every `verify` call, every layer of the
public-key cache retains at most `MAX_PKS` keys (the bound is
re-established by pruning whenever the cache was touched, and preserved
untouched otherwise); the evicted keys are those first in the per-layer
timestamp-sorted order, with timestamp ties broken by the cache's
iteration order — NOT by key byte-order. -/
theorem claim_C7_pk_cache_bound (N K TAU M : Nat) (th mh : List Nat → List Nat)
    (ser : List KeyWrapperM → List Nat) (xxh : List Nat → Nat) (maxPks : Nat)
    (pks : List PkEntry) (block : SignedBlockM) (now : Nat)
    (hpre : ∀ l, countLayer l pks ≤ maxPks) (l : Nat) :
    countLayer l (verify_block N K TAU M th mh ser xxh maxPks pks block now).pks
      ≤ maxPks := by
  have hpks : (verify_block N K TAU M th mh ser xxh maxPks pks block now).pks
      = if pks.any (fun e => horst_verify N K TAU M th mh
            (block.data ++ ser block.pub_keys) block.signature e.1) || pks.isEmpty
        then prune_pks maxPks (certify now pks block.pub_keys)
        else pks := rfl
  rw [hpks]
  split
  · exact prune_pks_bound maxPks _ l
  · exact hpre l

/-- Witness for C7 at a concrete one-entry cache and one-key block. -/
theorem claim_C7_witness :
    countLayer 0 (verify_block 1 1 1 0 (fun y => [y.sum % 256]) (fun _ => [])
      (fun _ => []) (fun _ => 0) 1 [([9], 0, 0)] ⟨[9], [], [⟨[3], 0⟩]⟩ 5).pks ≤ 1 := by
  have hpre : ∀ l, countLayer l [(([9] : List Nat), 0, 0)] ≤ 1 := by
    intro l
    by_cases h : (0 : Nat) = l
    · subst h
      decide
    · have hf : ((0 : Nat) == l) = false := by simpa using h
      simp [countLayer, List.filter, hf]
  exact claim_C7_pk_cache_bound 1 1 1 0 (fun y => [y.sum % 256]) (fun _ => [])
    (fun _ => []) (fun _ => 0) 1 [([9], 0, 0)] ⟨[9], [], [⟨[3], 0⟩]⟩ 5 hpre 0

/-! ### Determinism lemmas (C9) -/

theorem nth_map_total {α β : Type} (g : α → β) :
    ∀ (l : List α) (i : Nat) (d : α), nth (l.map g) i (g d) = g (nth l i d)
  | [], _, _ => rfl
  | a :: l, 0, _ => rfl
  | a :: l, i + 1, d => nth_map_total g l i d

theorem setNth_map {α β : Type} (g : α → β) :
    ∀ (l : List α) (i : Nat) (v : α),
      (setNth l i v).map g = setNth (l.map g) i (g v)
  | [], _, _ => rfl
  | a :: l, 0, v => rfl
  | a :: l, i + 1, v => by
    simp only [setNth, List.map]
    rw [setNth_map g l i v]

theorem map_eraseCont_wrap (i : Nat) :
    ∀ layer : List KeyCont,
      (layer.map eraseCont).map
          (fun k => ({ key := k.key.public, layer := i } : KeyWrapperM))
        = layer.map (fun k => ({ key := k.key.public, layer := i } : KeyWrapperM))
  | [] => rfl
  | k :: layer => by
    simp only [List.map]
    rw [map_eraseCont_wrap i layer]
    rfl

theorem collect_pks_aux_erase :
    ∀ (data : List (List KeyCont)) (i : Nat),
      collect_pks_aux i (data.map (fun layer => layer.map eraseCont))
        = collect_pks_aux i data
  | [], _ => rfl
  | layer :: rest, i => by
    simp only [List.map, collect_pks_aux]
    rw [map_eraseCont_wrap i layer, collect_pks_aux_erase rest (i + 1)]

theorem collect_pks_erase (L : KeyLayers) :
    collect_pks (eraseLayers L) = collect_pks L :=
  collect_pks_aux_erase L.data 0

theorem eraseCont_fields (k1 k2 : KeyCont) (h : eraseCont k1 = eraseCont k2) :
    k1.key = k2.key ∧ k1.signs = k2.signs ∧ k1.lifetime = k2.lifetime := by
  have h1 := congrArg KeyCont.key h
  have h2 := congrArg KeyCont.signs h
  have h3 := congrArg KeyCont.lifetime h
  exact ⟨h1, h2, h3⟩

/-- `poll` on two states that differ only in recorded timestamps. -/
theorem poll_rel (L1 L2 : KeyLayers) (layer ts1 ts2 : Nat)
    (he : eraseLayers L1 = eraseLayers L2) :
    PollRel (L1.poll layer ts1) (L2.poll layer ts2) := by
  have hdata : L1.data.map (fun layer => layer.map eraseCont)
      = L2.data.map (fun layer => layer.map eraseCont) := congrArg KeyLayers.data he
  have hut0 := congrArg KeyLayers.until_top he
  have hns0 := congrArg KeyLayers.next_seq he
  have hut : L1.until_top = L2.until_top := hut0
  have hns : L1.next_seq = L2.next_seq := hns0
  have hng : (nth L1.data layer []).map eraseCont
      = (nth L2.data layer []).map eraseCont := by
    have h1 := nth_map_total (fun layer => layer.map eraseCont) L1.data layer []
    have h2 := nth_map_total (fun layer => layer.map eraseCont) L2.data layer []
    calc (nth L1.data layer []).map eraseCont
        = nth (L1.data.map (fun layer => layer.map eraseCont)) layer [] := h1.symm
      _ = nth (L2.data.map (fun layer => layer.map eraseCont)) layer [] := by rw [hdata]
      _ = (nth L2.data layer []).map eraseCont := h2
  unfold KeyLayers.poll
  cases h1 : nth L1.data layer [] with
  | nil =>
    have h2 : nth L2.data layer [] = [] := by
      rw [h1] at hng
      exact List.map_eq_nil_iff.mp hng.symm
    rw [h2]
    exact trivial
  | cons k01 rest1 =>
    rw [h1] at hng
    cases h2 : nth L2.data layer [] with
    | nil =>
      rw [h2] at hng
      simp at hng
    | cons k02 rest2 =>
      rw [h2] at hng
      simp only [List.map] at hng
      have hk : eraseCont k01 = eraseCont k02 := (List.cons.injEq _ _ _ _ ▸ hng).1
      have hrest : rest1.map eraseCont = rest2.map eraseCont :=
        (List.cons.injEq _ _ _ _ ▸ hng).2
      obtain ⟨hkey, hsigns, hlt⟩ := eraseCont_fields k01 k02 hk
      have hdied : (k01.lifetime - (k01.signs + 1) == 0)
          = (k02.lifetime - (k02.signs + 1) == 0) := by rw [hsigns, hlt]
      refine ⟨?_, ?_, ?_⟩
      · show eraseCont { k01 with signs := k01.signs + 1, last_cerified := ts1 }
            = eraseCont { k02 with signs := k02.signs + 1, last_cerified := ts2 }
        show ({ key := k01.key, last_cerified := 0, signs := k01.signs + 1,
                lifetime := k01.lifetime } : KeyCont)
            = { key := k02.key, last_cerified := 0, signs := k02.signs + 1,
                lifetime := k02.lifetime }
        rw [hkey, hsigns, hlt]
      · exact hdied
      · show eraseLayers { L1 with
            data := setNth L1.data layer
              (if (k01.lifetime - (k01.signs + 1) == 0) then rest1
               else { k01 with signs := k01.signs + 1, last_cerified := ts1 } :: rest1),
            first_sign := false }
          = eraseLayers { L2 with
            data := setNth L2.data layer
              (if (k02.lifetime - (k02.signs + 1) == 0) then rest2
               else { k02 with signs := k02.signs + 1, last_cerified := ts2 } :: rest2),
            first_sign := false }
        unfold eraseLayers
        have hbody : (setNth L1.data layer
              (if (k01.lifetime - (k01.signs + 1) == 0) then rest1
               else { k01 with signs := k01.signs + 1, last_cerified := ts1 } :: rest1)).map
                (fun layer => layer.map eraseCont)
            = (setNth L2.data layer
              (if (k02.lifetime - (k02.signs + 1) == 0) then rest2
               else { k02 with signs := k02.signs + 1, last_cerified := ts2 } :: rest2)).map
                (fun layer => layer.map eraseCont) := by
          rw [setNth_map, setNth_map, hdata]
          congr 1
          show (if (k01.lifetime - (k01.signs + 1) == 0) then rest1
               else { k01 with signs := k01.signs + 1, last_cerified := ts1 } :: rest1).map
                 eraseCont
              = (if (k02.lifetime - (k02.signs + 1) == 0) then rest2
               else { k02 with signs := k02.signs + 1, last_cerified := ts2 } :: rest2).map
                 eraseCont
          by_cases hd : (k01.lifetime - (k01.signs + 1) == 0) = true
          · have hd2 : (k02.lifetime - (k02.signs + 1) == 0) = true := by
              rw [← hdied]
              exact hd
            rw [if_pos hd, if_pos hd2]
            exact hrest
          · have hd2 : ¬ ((k02.lifetime - (k02.signs + 1) == 0) = true) := by
              rw [← hdied]
              exact hd
            rw [if_neg hd, if_neg hd2]
            have hh : eraseCont { k01 with signs := k01.signs + 1, last_cerified := ts1 }
                = eraseCont { k02 with signs := k02.signs + 1, last_cerified := ts2 } := by
              show ({ key := k01.key, last_cerified := 0, signs := k01.signs + 1,
                      lifetime := k01.lifetime } : KeyCont)
                  = { key := k02.key, last_cerified := 0, signs := k02.signs + 1,
                      lifetime := k02.lifetime }
              rw [hkey, hsigns, hlt]
            show eraseCont { k01 with signs := k01.signs + 1, last_cerified := ts1 }
                :: rest1.map eraseCont
              = eraseCont { k02 with signs := k02.signs + 1, last_cerified := ts2 }
                :: rest2.map eraseCont
            rw [hh, hrest]
        show KeyLayers.mk _ false L1.until_top L1.next_seq
            = KeyLayers.mk _ false L2.until_top L2.next_seq
        rw [hbody, hut, hns]

theorem nth_erase_layer (L1 L2 : KeyLayers) (lv : Nat)
    (hdata : L1.data.map (fun layer => layer.map eraseCont)
      = L2.data.map (fun layer => layer.map eraseCont)) :
    (nth L1.data lv []).map eraseCont = (nth L2.data lv []).map eraseCont := by
  have h1 := nth_map_total (fun layer => layer.map eraseCont) L1.data lv []
  have h2 := nth_map_total (fun layer => layer.map eraseCont) L2.data lv []
  calc (nth L1.data lv []).map eraseCont
      = nth (L1.data.map (fun layer => layer.map eraseCont)) lv [] := h1.symm
    _ = nth (L2.data.map (fun layer => layer.map eraseCont)) lv [] := by rw [hdata]
    _ = (nth L2.data lv []).map eraseCont := h2

theorem insert_erase_congr (L1 L2 : KeyLayers) (lv : Nat) (kp : HorstKeyPair)
    (he : eraseLayers L1 = eraseLayers L2) :
    eraseLayers (L1.insert lv kp) = eraseLayers (L2.insert lv kp) := by
  have hdata : L1.data.map (fun layer => layer.map eraseCont)
      = L2.data.map (fun layer => layer.map eraseCont) := congrArg KeyLayers.data he
  have hfs0 := congrArg KeyLayers.first_sign he
  have hfs : L1.first_sign = L2.first_sign := hfs0
  have hut0 := congrArg KeyLayers.until_top he
  have hut : L1.until_top = L2.until_top := hut0
  have hns0 := congrArg KeyLayers.next_seq he
  have hns : L1.next_seq = L2.next_seq := hns0
  show KeyLayers.mk
      ((setNth L1.data lv (nth L1.data lv []
        ++ [{ key := kp, last_cerified := 0, signs := 0, lifetime := 20 }])).map
          (fun layer => layer.map eraseCont))
      L1.first_sign L1.until_top L1.next_seq
    = KeyLayers.mk
      ((setNth L2.data lv (nth L2.data lv []
        ++ [{ key := kp, last_cerified := 0, signs := 0, lifetime := 20 }])).map
          (fun layer => layer.map eraseCont))
      L2.first_sign L2.until_top L2.next_seq
  rw [hfs, hut, hns, setNth_map, setNth_map, hdata]
  have hbody : (nth L1.data lv []
        ++ [({ key := kp, last_cerified := 0, signs := 0,
               lifetime := 20 } : KeyCont)]).map eraseCont
      = (nth L2.data lv []
        ++ [({ key := kp, last_cerified := 0, signs := 0,
               lifetime := 20 } : KeyCont)]).map eraseCont := by
    rw [List.map_append, List.map_append, nth_erase_layer L1 L2 lv hdata]
  rw [hbody]

/-- `next_key` on two states that differ only in recorded timestamps. -/
theorem next_key_rel (sampleFn : RngState → Nat × RngState) (N TAU : Nat)
    (th : List Nat → List Nat) (s1 s2 : SignerSt) (ts1 ts2 : Nat)
    (hr : s1.rng = s2.rng) (he : eraseLayers s1.layers = eraseLayers s2.layers) :
    NextKeyRel (BlockSigner.next_key sampleFn N TAU th s1 ts1)
      (BlockSigner.next_key sampleFn N TAU th s2 ts2) := by
  have hfs0 := congrArg KeyLayers.first_sign he
  have hfs : s1.layers.first_sign = s2.layers.first_sign := hfs0
  have hpks : collect_pks s1.layers = collect_pks s2.layers := by
    rw [← collect_pks_erase s1.layers, ← collect_pks_erase s2.layers, he]
  set sl1 : Nat × RngState :=
    if s1.layers.first_sign then ((0 : Nat), s1.rng) else sampleFn s1.rng with hsl1
  set sl2 : Nat × RngState :=
    if s2.layers.first_sign then ((0 : Nat), s2.rng) else sampleFn s2.rng with hsl2
  have hsl : sl1 = sl2 := by rw [hsl1, hsl2, hfs, hr]
  have hprel2 : PollRel (s1.layers.poll sl1.1 ts1) (s2.layers.poll sl2.1 ts2) := by
    rw [← hsl]
    exact poll_rel s1.layers s2.layers sl1.1 ts1 ts2 he
  rcases hp1 : s1.layers.poll sl1.1 ts1 with _ | ⟨k1, d1, L1⟩
  <;> rcases hp2 : s2.layers.poll sl2.1 ts2 with _ | ⟨k2, d2, L2⟩
  <;> rw [hp1, hp2] at hprel2
  · have e1 : BlockSigner.next_key sampleFn N TAU th s1 ts1 = none := by
      unfold BlockSigner.next_key
      rw [← hsl1, hp1]
    have e2 : BlockSigner.next_key sampleFn N TAU th s2 ts2 = none := by
      unfold BlockSigner.next_key
      rw [← hsl2, hp2]
    rw [e1, e2]
    exact trivial
  · exact hprel2.elim
  · exact hprel2.elim
  · obtain ⟨hk, hd, hL⟩ := hprel2
    obtain ⟨hkey, _, _⟩ := eraseCont_fields k1 k2 hk
    have e1 : BlockSigner.next_key sampleFn N TAU th s1 ts1
        = if d1 then
            some (k1.key.secret, collect_pks s1.layers,
              ({ rng := (gen_key_pair N TAU th sl1.2).2,
                 layers := L1.insert sl1.1 (gen_key_pair N TAU th sl1.2).1 } : SignerSt))
          else
            some (k1.key.secret, collect_pks s1.layers,
              ({ rng := sl1.2, layers := L1 } : SignerSt)) := by
      unfold BlockSigner.next_key
      rw [← hsl1, hp1]
    have e2 : BlockSigner.next_key sampleFn N TAU th s2 ts2
        = if d2 then
            some (k2.key.secret, collect_pks s2.layers,
              ({ rng := (gen_key_pair N TAU th sl2.2).2,
                 layers := L2.insert sl2.1 (gen_key_pair N TAU th sl2.2).1 } : SignerSt))
          else
            some (k2.key.secret, collect_pks s2.layers,
              ({ rng := sl2.2, layers := L2 } : SignerSt)) := by
      unfold BlockSigner.next_key
      rw [← hsl2, hp2]
    rw [e1, e2, ← hsl, ← hd, ← hpks, hkey]
    cases d1 with
    | false => exact ⟨rfl, rfl, rfl, hL⟩
    | true =>
      exact ⟨rfl, rfl, rfl, insert_erase_congr L1 L2 _ _ hL⟩

/-- A whole sender run is independent of the timestamp oracle. -/
theorem signRun_rel (sampleFn : RngState → Nat × RngState)
    (N K TAU M : Nat) (th mh : List Nat → List Nat)
    (ser : List KeyWrapperM → List Nat) :
    ∀ (inputs : List (List Nat)) (s1 s2 : SignerSt) (ts1 ts2 : Nat → Nat) (i1 i2 : Nat),
      s1.rng = s2.rng → eraseLayers s1.layers = eraseLayers s2.layers →
      signRun sampleFn N K TAU M th mh ser inputs s1 ts1 i1
        = signRun sampleFn N K TAU M th mh ser inputs s2 ts2 i2
  | [], _, _, _, _, _, _, _, _ => rfl
  | payload :: rest, s1, s2, ts1, ts2, i1, i2, hr, he => by
    have hnk := next_key_rel sampleFn N TAU th s1 s2 (ts1 i1) (ts2 i2) hr he
    rcases hp1 : BlockSigner.next_key sampleFn N TAU th s1 (ts1 i1)
      with _ | ⟨sk1, pks1, st1⟩
    <;> rcases hp2 : BlockSigner.next_key sampleFn N TAU th s2 (ts2 i2)
      with _ | ⟨sk2, pks2, st2⟩
    <;> rw [hp1, hp2] at hnk
    · have e1 : BlockSigner.sign sampleFn N K TAU M th mh ser s1 payload (ts1 i1)
          = none := by
        unfold BlockSigner.sign
        rw [hp1]
      have e2 : BlockSigner.sign sampleFn N K TAU M th mh ser s2 payload (ts2 i2)
          = none := by
        unfold BlockSigner.sign
        rw [hp2]
      show (match BlockSigner.sign sampleFn N K TAU M th mh ser s1 payload (ts1 i1) with
        | none => []
        | some (out, st2) =>
          out :: signRun sampleFn N K TAU M th mh ser rest st2 ts1 (i1 + 1))
        = match BlockSigner.sign sampleFn N K TAU M th mh ser s2 payload (ts2 i2) with
        | none => []
        | some (out, st2) =>
          out :: signRun sampleFn N K TAU M th mh ser rest st2 ts2 (i2 + 1)
      rw [e1, e2]
    · exact hnk.elim
    · exact hnk.elim
    · obtain ⟨hsk, hpk, hrg, hly⟩ := hnk
      have e1 : BlockSigner.sign sampleFn N K TAU M th mh ser s1 payload (ts1 i1)
          = some ((horst_sign K TAU M mh (payload ++ ser pks1) sk1, pks1), st1) := by
        unfold BlockSigner.sign
        rw [hp1]
      have e2 : BlockSigner.sign sampleFn N K TAU M th mh ser s2 payload (ts2 i2)
          = some ((horst_sign K TAU M mh (payload ++ ser pks2) sk2, pks2), st2) := by
        unfold BlockSigner.sign
        rw [hp2]
      show (match BlockSigner.sign sampleFn N K TAU M th mh ser s1 payload (ts1 i1) with
        | none => []
        | some (out, st2) =>
          out :: signRun sampleFn N K TAU M th mh ser rest st2 ts1 (i1 + 1))
        = match BlockSigner.sign sampleFn N K TAU M th mh ser s2 payload (ts2 i2) with
        | none => []
        | some (out, st2) =>
          out :: signRun sampleFn N K TAU M th mh ser rest st2 ts2 (i2 + 1)
      rw [e1, e2, hsk, hpk]
      have htail := signRun_rel sampleFn N K TAU M th mh ser rest st1 st2 ts1 ts2
        (i1 + 1) (i2 + 1) hrg hly
      show (horst_sign K TAU M mh (payload ++ ser pks2) sk2, pks2)
          :: signRun sampleFn N K TAU M th mh ser rest st1 ts1 (i1 + 1)
        = (horst_sign K TAU M mh (payload ++ ser pks2) sk2, pks2)
          :: signRun sampleFn N K TAU M th mh ser rest st2 ts2 (i2 + 1)
      rw [htail]

/-- C9: sender determinism.  Two runs of the block signer constructed
fresh from the same RNG seed and given the same sequence of `sign`
inputs emit identical sequences of `(signature, pub_keys)` pairs: the
emitted values do not depend on the wall-clock timestamps, the only
run-varying input of the signing path. -/
theorem claim_C9_sender_determinism (sampleFn : RngState → Nat × RngState)
    (seedFn : Nat → RngState) (N K TAU M : Nat) (th mh : List Nat → List Nat)
    (ser : List KeyWrapperM → List Nat) (seed layersCount : Nat)
    (inputs : List (List Nat)) (ts1 ts2 : Nat → Nat) :
    signRun sampleFn N K TAU M th mh ser inputs
        (BlockSigner.new seedFn N TAU th seed layersCount) ts1 0
      = signRun sampleFn N K TAU M th mh ser inputs
        (BlockSigner.new seedFn N TAU th seed layersCount) ts2 0 :=
  signRun_rel sampleFn N K TAU M th mh ser inputs _ _ ts1 ts2 0 0 rfl rfl

/-! ### Key-eviction invariant (C4) -/

theorem mem_setNth {α : Type} (v : α) :
    ∀ (l : List α) (i : Nat) (x : α), x ∈ setNth l i v → x = v ∨ x ∈ l
  | [], _, x, hx => by simp [setNth] at hx
  | a :: l, 0, x, hx => by
    rcases List.mem_cons.mp hx with he | ht
    · exact Or.inl he
    · exact Or.inr (by simp [ht])
  | a :: l, i + 1, x, hx => by
    rcases List.mem_cons.mp hx with he | ht
    · exact Or.inr (by simp [he])
    · rcases mem_setNth v l i x ht with h | h
      · exact Or.inl h
      · exact Or.inr (by simp [h])

theorem setNth_setNth {α : Type} (a b : α) :
    ∀ (l : List α) (i : Nat), setNth (setNth l i a) i b = setNth l i b
  | [], _ => rfl
  | x :: l, 0 => rfl
  | x :: l, i + 1 => by
    simp only [setNth]
    rw [setNth_setNth a b l i]

/-- C4: key eviction.  On every `next_key` call (under the maintained
invariant that every layer is non-empty with strictly unspent keys, and
with the sampled layer in range), the call succeeds; the polled record —
the front of the sampled layer — is removed exactly when its incremented
sign counter reaches its charge budget (`lifetime`, hardcoded 20 at
insertion), in which case a freshly generated keypair is pushed onto the
same layer; otherwise the record stays with its counter incremented.
After the call every layer still holds at least one live keypair and
every record satisfies `signs < lifetime` (hence
`0 ≤ signs_used ≤ charges`). -/
theorem claim_C4_key_eviction (sampleFn : RngState → Nat × RngState)
    (N TAU : Nat) (th : List Nat → List Nat) (st : SignerSt) (ts : Nat)
    (hinv : ∀ layer ∈ st.layers.data, layer ≠ [] ∧ ∀ k ∈ layer, k.signs < k.lifetime)
    (hs : (if st.layers.first_sign then ((0 : Nat), st.rng) else sampleFn st.rng).1
      < st.layers.data.length) :
    ∃ (k0 : KeyCont) (tail : List KeyCont) (st2 : SignerSt),
      nth st.layers.data
          (if st.layers.first_sign then ((0 : Nat), st.rng) else sampleFn st.rng).1 []
        = k0 :: tail
      ∧ BlockSigner.next_key sampleFn N TAU th st ts
        = some (k0.key.secret, collect_pks st.layers, st2)
      ∧ (k0.signs + 1 = k0.lifetime →
          st2.layers.data = setNth st.layers.data
            (if st.layers.first_sign then ((0 : Nat), st.rng) else sampleFn st.rng).1
            (tail ++ [({ key := (gen_key_pair N TAU th (if st.layers.first_sign then ((0 : Nat), st.rng) else sampleFn st.rng).2).1, last_cerified := 0, signs := 0, lifetime := 20 } : KeyCont)]))
      ∧ (k0.signs + 1 ≠ k0.lifetime →
          st2.layers.data = setNth st.layers.data
            (if st.layers.first_sign then ((0 : Nat), st.rng) else sampleFn st.rng).1
            ({ k0 with signs := k0.signs + 1, last_cerified := ts } :: tail))
      ∧ (∀ layer ∈ st2.layers.data,
          layer ≠ [] ∧ ∀ k ∈ layer, k.signs < k.lifetime) := by
  set SL : Nat × RngState :=
    if st.layers.first_sign then ((0 : Nat), st.rng) else sampleFn st.rng with hSL
  have hmem : nth st.layers.data SL.1 [] ∈ st.layers.data := nth_mem _ _ _ hs
  obtain ⟨hlne, hlinv⟩ := hinv _ hmem
  obtain ⟨k0, tail, hcons⟩ :
      ∃ k0 tail, nth st.layers.data SL.1 [] = k0 :: tail := by
    cases h : nth st.layers.data SL.1 [] with
    | nil => exact absurd h hlne
    | cons a b => exact ⟨a, b, rfl⟩
  have hk0inv : k0.signs < k0.lifetime := hlinv k0 (by rw [hcons]; simp)
  have htailinv : ∀ k ∈ tail, k.signs < k.lifetime := by
    intro k hk
    exact hlinv k (by rw [hcons]; simp [hk])
  have hpoll : st.layers.poll SL.1 ts = some
      ({ k0 with signs := k0.signs + 1, last_cerified := ts },
       (k0.lifetime - (k0.signs + 1) == 0),
       { st.layers with
         data := setNth st.layers.data SL.1
           (if (k0.lifetime - (k0.signs + 1) == 0)
            then tail
            else { k0 with signs := k0.signs + 1, last_cerified := ts } :: tail),
         first_sign := false }) := by
    unfold KeyLayers.poll
    rw [hcons]
  -- invariant transfer for an untouched or updated layer
  have hinv_setNth : ∀ (newL : List KeyCont), newL ≠ [] →
      (∀ k ∈ newL, k.signs < k.lifetime) →
      ∀ layer ∈ setNth st.layers.data SL.1 newL,
        layer ≠ [] ∧ ∀ k ∈ layer, k.signs < k.lifetime := by
    intro newL h1 h2 layer hlay
    rcases mem_setNth newL st.layers.data SL.1 layer hlay with h | h
    · exact h ▸ ⟨h1, h2⟩
    · exact hinv layer h
  by_cases hdied : k0.signs + 1 = k0.lifetime
  · have hb : (k0.lifetime - (k0.signs + 1) == 0) = true := by
      simp only [beq_iff_eq]
      omega
    have hdata : (KeyLayers.insert ({ data := setNth st.layers.data SL.1 tail, first_sign := false, until_top := st.layers.until_top, next_seq := st.layers.next_seq } : KeyLayers) SL.1 (gen_key_pair N TAU th SL.2).1).data = setNth st.layers.data SL.1 (tail ++ [({ key := (gen_key_pair N TAU th SL.2).1, last_cerified := 0, signs := 0, lifetime := 20 } : KeyCont)]) := by
      show setNth (setNth st.layers.data SL.1 tail) SL.1
          (nth (setNth st.layers.data SL.1 tail) SL.1 [] ++ _) = _
      rw [nth_setNth_eq _ _ _ _ (by omega), setNth_setNth]
    refine ⟨k0, tail, ({ rng := (gen_key_pair N TAU th SL.2).2, layers := KeyLayers.insert ({ data := setNth st.layers.data SL.1 tail, first_sign := false, until_top := st.layers.until_top, next_seq := st.layers.next_seq } : KeyLayers) SL.1 (gen_key_pair N TAU th SL.2).1 } : SignerSt), hcons, ?_, ?_, ?_, ?_⟩
    · unfold BlockSigner.next_key
      rw [← hSL, hpoll, hb]
      rfl
    · intro _
      exact hdata
    · intro hcontra
      exact absurd hdied hcontra
    · show ∀ layer ∈ (KeyLayers.insert ({ data := setNth st.layers.data SL.1 tail, first_sign := false, until_top := st.layers.until_top, next_seq := st.layers.next_seq } : KeyLayers) SL.1 (gen_key_pair N TAU th SL.2).1).data, layer ≠ [] ∧ ∀ k ∈ layer, k.signs < k.lifetime
      rw [hdata]
      apply hinv_setNth
      · simp
      · intro k hk
        rcases List.mem_append.mp hk with h | h
        · exact htailinv k h
        · have hkk : k = ({ key := (gen_key_pair N TAU th SL.2).1, last_cerified := 0, signs := 0, lifetime := 20 } : KeyCont) := by simpa using h
          rw [hkk]
          show (0 : Nat) < 20
          omega
  · have hb : (k0.lifetime - (k0.signs + 1) == 0) = false := by
      simp only [beq_eq_false_iff_ne]
      omega
    refine ⟨k0, tail, ({ rng := SL.2, layers := ({ data := setNth st.layers.data SL.1 ({ k0 with signs := k0.signs + 1, last_cerified := ts } :: tail), first_sign := false, until_top := st.layers.until_top, next_seq := st.layers.next_seq } : KeyLayers) } : SignerSt), hcons, ?_, ?_, ?_, ?_⟩
    · unfold BlockSigner.next_key
      rw [← hSL, hpoll, hb]
      rfl
    · intro hcontra
      exact absurd hcontra hdied
    · intro _
      rfl
    · show ∀ layer ∈ setNth st.layers.data SL.1
          ({ k0 with signs := k0.signs + 1, last_cerified := ts } :: tail),
          layer ≠ [] ∧ ∀ k ∈ layer, k.signs < k.lifetime
      apply hinv_setNth
      · simp
      · intro k hk
        rcases List.mem_cons.mp hk with h | h
        · rw [h]
          show k0.signs + 1 < k0.lifetime
          omega
        · exact htailinv k h

theorem nth_take {α : Type} (d : α) :
    ∀ (l : List α) (n i : Nat), nth (l.take n) i d = if i < n then nth l i d else d
  | l, 0, i => by simp [nth]
  | [], n + 1, i => by simp [nth]
  | a :: l, n + 1, 0 => by simp [nth]
  | a :: l, n + 1, i + 1 => by
    simp only [List.take_succ_cons, nth, nth_take d l n i, Nat.add_lt_add_iff_right]

theorem nth_drop {α : Type} (d : α) :
    ∀ (l : List α) (n i : Nat), nth (l.drop n) i d = nth l (n + i) d
  | l, 0, i => by simp
  | [], n + 1, i => by simp [nth]
  | a :: l, n + 1, i => by
    simpa [nth, Nat.succ_add] using nth_drop d l n i

theorem ext_nth {α : Type} (d : α) :
    ∀ (l1 l2 : List α), l1.length = l2.length →
      (∀ i, i < l1.length → nth l1 i d = nth l2 i d) → l1 = l2
  | [], [], _, _ => rfl
  | [], a :: _, h, _ => by simp at h
  | a :: _, [], h, _ => by simp at h
  | a :: l1, b :: l2, h, hp => by
    have h0 := hp 0 (by simp)
    simp only [nth] at h0
    have hrest := ext_nth d l1 l2 (by simpa using h)
      (fun i hi => hp (i + 1) (by simpa using hi))
    rw [h0, hrest]

theorem nth_range (n i : Nat) (h : i < n) : nth (List.range n) i 0 = i := by
  rw [nth_eq_get 0 _ i (by simpa using h)]
  simp

theorem writeAt_length (B frag : List Nat) (start : Nat)
    (h : start + frag.length ≤ B.length) :
    (writeAt B start frag).length = B.length := by
  simp [writeAt]
  omega

theorem nth_writeAt (B frag : List Nat) (start pos : Nat)
    (h : start + frag.length ≤ B.length) :
    nth (writeAt B start frag) pos 0
      = if start ≤ pos ∧ pos < start + frag.length then nth frag (pos - start) 0
        else nth B pos 0 := by
  have hts : (B.take start).length = start := by
    simp [List.length_take]
    omega
  unfold writeAt
  by_cases h1 : pos < start
  · rw [nth_append_left 0 _ _ pos (by rw [hts]; exact h1)]
    rw [if_neg (by omega)]
    rw [nth_take]
    rw [if_pos h1]
  · have h1' : start ≤ pos := Nat.le_of_not_lt h1
    rw [nth_append_right 0 _ _ pos (by rw [hts]; exact h1'), hts]
    by_cases h2 : pos < start + frag.length
    · rw [nth_append_left 0 _ _ _ (by omega)]
      rw [if_pos ⟨h1', h2⟩]
    · rw [nth_append_right 0 _ _ _ (by omega)]
      rw [if_neg (by omega)]
      rw [nth_drop]
      congr 1
      omega

theorem bufOf_length (P : Nat) (data : List Nat) (cnt : Nat) (done : List Nat) :
    (bufOf P data cnt done).length = P * cnt := by
  simp [bufOf]

theorem nth_bufOf (P : Nat) (data : List Nat) (cnt : Nat) (done : List Nat) (pos : Nat)
    (h : pos < P * cnt) :
    nth (bufOf P data cnt done) pos 0
      = if pos / P ∈ done ∧ pos < data.length then nth data pos 0 else 0 := by
  unfold bufOf
  rw [nth_map' _ 0 0 _ pos (by simpa using h)]
  rw [nth_range (P * cnt) pos h]

theorem bufOf_congr (P : Nat) (data : List Nat) (cnt : Nat) (d1 d2 : List Nat)
    (h : ∀ j : Nat, j ∈ d1 ↔ j ∈ d2) : bufOf P data cnt d1 = bufOf P data cnt d2 := by
  unfold bufOf
  apply List.map_congr_left
  intro a _
  by_cases hc : a / P ∈ d1 ∧ a < data.length
  · rw [if_pos hc, if_pos ⟨(h _).mp hc.1, hc.2⟩]
  · rw [if_neg hc, if_neg (fun hc2 => hc ⟨(h _).mpr hc2.1, hc2.2⟩)]

theorem new_eq_blockOf (P : Nat) (data : List Nat) (cnt : Nat) :
    FragmentedBlock.new P cnt = blockOf P data cnt [] := by
  have h1 : List.replicate (P * cnt) 0 = bufOf P data cnt [] := by
    apply ext_nth 0
    · simp [bufOf]
    · intro i hi
      simp only [List.length_replicate] at hi
      rw [nth_replicate, nth_bufOf P data cnt [] i hi]
      simp [hi]
  have h2 : (List.range cnt).filter (fun j => decide (j ∉ ([] : List Nat)))
      = List.range cnt := by
    simp
  unfold FragmentedBlock.new blockOf
  rw [h1, h2]

theorem missing_step (cnt : Nat) (done : List Nat) (i : Nat) :
    ((List.range cnt).filter (fun j => decide (j ∉ done))).filter
        (fun j => decide (j ≠ i))
      = (List.range cnt).filter (fun j => decide (j ∉ done ++ [i])) := by
  rw [List.filter_filter]
  apply List.filter_congr
  intro a _
  by_cases h1 : a ∈ done <;> by_cases h2 : a = i <;>
    simp [h1, h2, List.mem_append]

theorem writeAt_bufOf (P : Nat) (data : List Nat) (cnt : Nat) (done : List Nat)
    (h0 : 0 < P) (i : Nat) (hi : i < cnt) :
    writeAt (bufOf P data cnt done) (i * P) ((data.drop (i * P)).take P)
      = bufOf P data cnt (done ++ [i]) := by
  have hcl : ((data.drop (i * P)).take P).length = min P (data.length - i * P) := by
    simp
  have hmul : i * P + P ≤ P * cnt := by
    have ha : (i + 1) * P ≤ cnt * P := Nat.mul_le_mul_right P hi
    have hb : (i + 1) * P = i * P + P := Nat.succ_mul i P
    have hc : cnt * P = P * cnt := Nat.mul_comm cnt P
    omega
  have hb : i * P + ((data.drop (i * P)).take P).length ≤ (bufOf P data cnt done).length := by
    rw [bufOf_length]
    omega
  apply ext_nth 0
  · rw [writeAt_length _ _ _ hb, bufOf_length, bufOf_length]
  · intro pos hpos
    rw [writeAt_length _ _ _ hb, bufOf_length] at hpos
    rw [nth_writeAt _ _ _ _ hb]
    rw [nth_bufOf P data cnt (done ++ [i]) pos hpos]
    by_cases hreg : i * P ≤ pos ∧ pos < i * P + ((data.drop (i * P)).take P).length
    · rw [if_pos hreg]
      have hdiv : pos / P = i := by
        apply Nat.div_eq_of_lt_le hreg.1
        rw [Nat.succ_mul]
        omega
      rw [nth_take, nth_drop]
      have hlt : pos - i * P < P := by omega
      rw [if_pos hlt]
      have hidx : i * P + (pos - i * P) = pos := by omega
      rw [hidx]
      have hlen : pos < data.length := by omega
      rw [if_pos ⟨by rw [hdiv]; exact List.mem_append.mpr (Or.inr (by simp)), hlen⟩]
    · rw [if_neg hreg]
      rw [nth_bufOf P data cnt done pos hpos]
      by_cases hd : pos / P ∈ done ∧ pos < data.length
      · rw [if_pos hd, if_pos ⟨List.mem_append.mpr (Or.inl hd.1), hd.2⟩]
      · have hneg : ¬ (pos / P ∈ done ++ [i] ∧ pos < data.length) := by
          intro hc
          rcases List.mem_append.mp hc.1 with h | h
          · exact hd ⟨h, hc.2⟩
          · have hpi : pos / P = i := by simpa using h
            apply hreg
            constructor
            · calc i * P = pos / P * P := by rw [hpi]
                _ ≤ pos := Nat.div_mul_le_self pos P
            · have h2 := Nat.div_add_mod pos P
              rw [hpi] at h2
              have h3 : pos % P < P := Nat.mod_lt pos h0
              have h4 : P * i = i * P := Nat.mul_comm P i
              omega
        rw [if_neg hd, if_neg hneg]

theorem record_insert_char (P : Nat) (data : List Nat) (cnt : Nat) (done : List Nat)
    (h0 : 0 < P) (i : Nat) (hi : i < cnt) :
    (blockOf P data cnt done).insert i ((data.drop (i * P)).take P)
      = some
          ((if ((List.range cnt).filter (fun j => decide (j ∉ done ++ [i]))).isEmpty
             then some (bufOf P data cnt (done ++ [i])) else none),
           blockOf P data cnt (done ++ [i])) := by
  have hcl : ((data.drop (i * P)).take P).length = min P (data.length - i * P) := by
    simp
  have hmul : i * P + P ≤ P * cnt := by
    have ha : (i + 1) * P ≤ cnt * P := Nat.mul_le_mul_right P hi
    have hb : (i + 1) * P = i * P + P := Nat.succ_mul i P
    have hc : cnt * P = P * cnt := Nat.mul_comm cnt P
    omega
  simp only [FragmentedBlock.insert, blockOf]
  rw [if_neg (by rw [bufOf_length]; omega)]
  rw [missing_step, writeAt_bufOf P data cnt done h0 i hi]

theorem parse_dgramOf (P : Nat) (xxh : List Nat → Nat) (data : List Nat) (cnt i : Nat)
    (hi : i < 256 ^ 4) (hc : cnt < 256 ^ 4) :
    parse_datagram (dgramOf P xxh data cnt i)
      = some (xxh data % 256 ^ 8, i, cnt, (data.drop (i * P)).take P) := by
  have h8 : (leBytes 8 (xxh data)).length = 8 := leBytes_length 8 _
  have h4i : (leBytes 4 i).length = 4 := leBytes_length 4 _
  have h4c : (leBytes 4 cnt).length = 4 := leBytes_length 4 _
  unfold parse_datagram dgramOf
  rw [if_neg (by simp [leBytes_length]; omega)]
  have e1 : (leBytes 8 (xxh data) ++ (leBytes 4 i ++ (leBytes 4 cnt
      ++ (data.drop (i * P)).take P))).take 8 = leBytes 8 (xxh data) :=
    List.take_left' h8
  have e2 : (leBytes 8 (xxh data) ++ (leBytes 4 i ++ (leBytes 4 cnt
      ++ (data.drop (i * P)).take P))).drop 8
      = leBytes 4 i ++ (leBytes 4 cnt ++ (data.drop (i * P)).take P) :=
    List.drop_left' h8
  have e3 : (leBytes 4 i ++ (leBytes 4 cnt ++ (data.drop (i * P)).take P)).take 4
      = leBytes 4 i := List.take_left' h4i
  have e4 : (leBytes 4 i ++ (leBytes 4 cnt ++ (data.drop (i * P)).take P)).drop 4
      = leBytes 4 cnt ++ (data.drop (i * P)).take P := List.drop_left' h4i
  have e5 : (leBytes 4 cnt ++ (data.drop (i * P)).take P).take 4 = leBytes 4 cnt :=
    List.take_left' h4c
  have e6 : (leBytes 4 cnt ++ (data.drop (i * P)).take P).drop 4
      = (data.drop (i * P)).take P := List.drop_left' h4c
  have e7 : (leBytes 8 (xxh data) ++ (leBytes 4 i ++ (leBytes 4 cnt
      ++ (data.drop (i * P)).take P))).drop 12
      = leBytes 4 cnt ++ (data.drop (i * P)).take P := by
    have h12 : (leBytes 8 (xxh data) ++ (leBytes 4 i ++ (leBytes 4 cnt
        ++ (data.drop (i * P)).take P))).drop 12
        = ((leBytes 8 (xxh data) ++ (leBytes 4 i ++ (leBytes 4 cnt
          ++ (data.drop (i * P)).take P))).drop 8).drop 4 := by
      rw [List.drop_drop]
    rw [h12, e2, e4]
  have e8 : (leBytes 8 (xxh data) ++ (leBytes 4 i ++ (leBytes 4 cnt
      ++ (data.drop (i * P)).take P))).drop 16
      = (data.drop (i * P)).take P := by
    have h16 : (leBytes 8 (xxh data) ++ (leBytes 4 i ++ (leBytes 4 cnt
        ++ (data.drop (i * P)).take P))).drop 16
        = ((leBytes 8 (xxh data) ++ (leBytes 4 i ++ (leBytes 4 cnt
          ++ (data.drop (i * P)).take P))).drop 12).drop 4 := by
      rw [List.drop_drop]
    rw [h16, e7, e6]
  rw [e1, e2, e3, e7, e5, e8]
  rw [fromLE_leBytes, fromLE_leBytes, fromLE_leBytes]
  rw [Nat.mod_eq_of_lt hi, Nat.mod_eq_of_lt hc]

theorem blocks_insert_char (D : Nat) (xxh : List Nat → Nat) (data : List Nat)
    (cnt : Nat) (h0 : 0 < D - 16) (hc32 : cnt < 256 ^ 4)
    (done : List Nat) (i : Nat) (hi : i < cnt) :
    FragmentedBlocks.insert D (fragStOf (D - 16) xxh data cnt done)
        (dgramOf (D - 16) xxh data cnt i)
      = some
          ((if ((List.range cnt).filter (fun j => decide (j ∉ done ++ [i]))).isEmpty
             then some (bufOf (D - 16) data cnt (done ++ [i])) else none),
           (if ((List.range cnt).filter (fun j => decide (j ∉ done ++ [i]))).isEmpty
             then [] else fragStOf (D - 16) xxh data cnt (done ++ [i]))) := by
  have hi32 : i < 256 ^ 4 := lt_of_lt_of_le hi (le_of_lt hc32)
  unfold FragmentedBlocks.insert
  rw [parse_dgramOf (D - 16) xxh data cnt i hi32 hc32]
  by_cases hdone : done.isEmpty = true
  · obtain rfl : done = [] := List.isEmpty_iff.mp hdone
    simp only [fragStOf, List.isEmpty_nil, if_true, alLookup, List.nil_append,
      get_datagram_sizes, eq_self_iff_true]
    rw [new_eq_blockOf (D - 16) data cnt]
    rw [record_insert_char (D - 16) data cnt [] h0 i hi]
    by_cases hcpl :
        ((List.range cnt).filter (fun j => decide (j ∉ [i]))).isEmpty = true
    · simp only [List.nil_append, if_pos hcpl, alRemove, eq_self_iff_true, if_true]
    · simp only [List.nil_append, if_neg hcpl, alUpdate, eq_self_iff_true, if_true,
        fragStOf, List.isEmpty_cons, Bool.false_eq_true, if_false]
  · have hde : fragStOf (D - 16) xxh data cnt done
        = [(xxh data % 256 ^ 8, blockOf (D - 16) data cnt done)] := by
      simp only [fragStOf, if_neg hdone]
    rw [hde]
    simp only [alLookup, eq_self_iff_true, if_true, get_datagram_sizes]
    rw [record_insert_char (D - 16) data cnt done h0 i hi]
    by_cases hcpl :
        ((List.range cnt).filter (fun j => decide (j ∉ done ++ [i]))).isEmpty = true
    · simp only [if_pos hcpl, alRemove, eq_self_iff_true, if_true]
    · have hne : (done ++ [i]).isEmpty = false := by
        cases done <;> rfl
      simp only [if_neg hcpl, alUpdate, eq_self_iff_true, if_true, fragStOf, hne,
        Bool.false_eq_true, if_false]

theorem le_mul_ceil (len P : Nat) (h0 : 0 < P) (h1 : 1 ≤ len) :
    len ≤ P * ((len + P - 1) / P) := by
  have hdm := Nat.div_add_mod (len + P - 1) P
  have hmod := Nat.mod_lt (len + P - 1) h0
  omega

theorem bufOf_full (P : Nat) (data : List Nat) (cnt : Nat)
    (h0 : 0 < P) (hlen : data.length ≤ P * cnt) :
    bufOf P data cnt (List.range cnt)
      = data ++ List.replicate (P * cnt - data.length) 0 := by
  apply ext_nth 0
  · rw [bufOf_length]
    simp
    omega
  · intro pos hpos
    rw [bufOf_length] at hpos
    rw [nth_bufOf P data cnt _ pos hpos]
    have hdiv : pos / P < cnt := by
      apply (Nat.div_lt_iff_lt_mul h0).mpr
      rw [Nat.mul_comm cnt P]
      exact hpos
    by_cases hl : pos < data.length
    · rw [if_pos ⟨by simpa using hdiv, hl⟩]
      rw [nth_append_left 0 _ _ pos hl]
    · rw [if_neg (fun hc => hl hc.2)]
      rw [nth_append_right 0 _ _ pos (by omega)]
      rw [nth_replicate]
      simp

theorem exists_perm_map {α β : Type} (f : α → β) :
    ∀ (ds es : List β), ds.Perm es → ∀ l : List α, es = l.map f →
      ∃ I : List α, I.Perm l ∧ ds = I.map f := by
  intro ds es h
  induction h with
  | nil =>
    intro l hl
    have : l = [] := by
      cases l with
      | nil => rfl
      | cons a l2 => simp at hl
    subst this
    exact ⟨[], List.Perm.refl [], rfl⟩
  | cons x h ih =>
    intro l hl
    cases l with
    | nil => simp at hl
    | cons a l2 =>
      simp only [List.map_cons, List.cons.injEq] at hl
      obtain ⟨hx, hes⟩ := hl
      obtain ⟨I2, hp, hds⟩ := ih l2 hes
      exact ⟨a :: I2, hp.cons a, by simp [hx, hds]⟩
  | swap x y es' =>
    intro l hl
    cases l with
    | nil => simp at hl
    | cons a l' =>
      cases l' with
      | nil => simp at hl
      | cons b l2 =>
        simp only [List.map_cons, List.cons.injEq] at hl
        obtain ⟨hx, hy, hes⟩ := hl
        exact ⟨b :: a :: l2, List.Perm.swap a b l2, by simp [hx, hy, hes]⟩
  | trans h1 h2 ih1 ih2 =>
    intro l hl
    obtain ⟨I, hI, hmid⟩ := ih2 l hl
    obtain ⟨I2, hI2, hds⟩ := ih1 I hmid
    exact ⟨I2, hI2.trans hI, hds⟩

theorem fragStOf_nil (P : Nat) (xxh : List Nat → Nat) (data : List Nat) (cnt : Nat) :
    fragStOf P xxh data cnt [] = [] := rfl

theorem feedAll_run (D : Nat) (xxh : List Nat → Nat) (data : List Nat) (cnt : Nat)
    (h0 : 0 < D - 16) (hc32 : cnt < 256 ^ 4) :
    ∀ (I done : List Nat), I ≠ [] → (done ++ I).Perm (List.range cnt) →
      feedAll D (I.map (dgramOf (D - 16) xxh data cnt))
          (fragStOf (D - 16) xxh data cnt done)
        = some ([bufOf (D - 16) data cnt (List.range cnt)], []) := by
  intro I
  induction I with
  | nil => intro done h; exact absurd rfl h
  | cons i I ih =>
    intro done _ hperm
    have hicnt : i < cnt := by
      have hm : i ∈ List.range cnt := hperm.mem_iff.mp (by simp)
      simpa using hm
    simp only [List.map_cons, feedAll]
    rw [blocks_insert_char D xxh data cnt h0 hc32 done i hicnt]
    cases I with
    | nil =>
      have hempty :
          ((List.range cnt).filter (fun j => decide (j ∉ done ++ [i]))).isEmpty
            = true := by
        have hfil : (List.range cnt).filter (fun j => decide (j ∉ done ++ [i]))
            = [] := by
          apply List.filter_eq_nil_iff.mpr
          intro a ha
          have hmem : a ∈ done ++ [i] := hperm.symm.mem_iff.mp ha
          simp [hmem]
        rw [hfil]
        rfl
      have hbuf : bufOf (D - 16) data cnt (done ++ [i])
          = bufOf (D - 16) data cnt (List.range cnt) :=
        bufOf_congr _ _ _ _ _ (fun j => hperm.mem_iff)
      rw [if_pos hempty, if_pos hempty, hbuf]
      simp [feedAll]
    | cons j I' =>
      have hnodup : (done ++ i :: j :: I').Nodup :=
        hperm.nodup_iff.mpr (List.nodup_range cnt)
      have hnonempty :
          ((List.range cnt).filter (fun k => decide (k ∉ done ++ [i]))).isEmpty
            = false := by
        have hj : j ∈ List.range cnt := hperm.mem_iff.mp (by simp)
        have hjd : j ∉ done ++ [i] := by
          rw [List.nodup_append] at hnodup
          obtain ⟨hd1, hd2, hdisj⟩ := hnodup
          intro hcon
          rcases List.mem_append.mp hcon with h | h
          · exact (hdisj h) (by simp)
          · have hji : j = i := by simpa using h
            subst hji
            exact (List.nodup_cons.mp hd2).1 (by simp)
        cases hfe :
            ((List.range cnt).filter (fun k => decide (k ∉ done ++ [i]))).isEmpty with
        | false => rfl
        | true =>
          exfalso
          have hnil : (List.range cnt).filter (fun k => decide (k ∉ done ++ [i]))
              = [] := List.isEmpty_iff.mp hfe
          have hjin : j ∈ (List.range cnt).filter
              (fun k => decide (k ∉ done ++ [i])) :=
            List.mem_filter.mpr ⟨hj, by simpa using hjd⟩
          rw [hnil] at hjin
          simp at hjin
      have hcond :
          ¬ ((List.range cnt).filter (fun k => decide (k ∉ done ++ [i]))).isEmpty
            = true := by
        rw [hnonempty]
        simp
      rw [if_neg hcond, if_neg hcond]
      have hstep := ih (done ++ [i]) (by simp)
        (by rw [List.append_assoc, List.singleton_append]; exact hperm)
      simp only [hstep, List.nil_append]

set_option maxRecDepth 10000 in
/-- C3 counterexample: the round trip is NOT exact.  With `DATAGRAM_SIZE
= 1024` (the datagram size of the spec's own fragment-shuffle test), the
one-byte block `[1]` reassembles — under the identity permutation of its
single datagram — to the zero-padded 1008-byte buffer, not to `[1]`. -/
theorem claim_C3_counterexample :
    feedAll 1024 (split_to_datagrams 1024 (fun _ => 0) [1]) []
        = some ([(1 : Nat) :: List.replicate 1007 0], [])
      ∧ ((1 : Nat) :: List.replicate 1007 0) ≠ [1] := by
  constructor
  · decide
  · decide

/-- C3 (amended): for every configured datagram size `D ≥ 17`, every
non-empty block and every permutation of its datagrams (with the count a
representable `u32`), feeding the permuted datagrams to a fresh
reassembler yields exactly one completed buffer: the block zero-padded to
`count · payload_size` bytes — not the block itself. -/
theorem claim_C3_fragmentation_roundtrip (D : Nat) (xxh : List Nat → Nat)
    (data : List Nat) (ds : List (List Nat))
    (hD : 17 ≤ D) (hdata : data ≠ [])
    (hcnt : (data.length + (D - 16) - 1) / (D - 16) < 256 ^ 4)
    (hperm : ds.Perm (split_to_datagrams D xxh data)) :
    feedAll D ds []
      = some ([data ++ List.replicate
          ((D - 16) * ((data.length + (D - 16) - 1) / (D - 16)) - data.length) 0],
        []) := by
  have h0 : 0 < D - 16 := by omega
  have hlen1 : 1 ≤ data.length := List.length_pos.mpr hdata
  have hsplit : split_to_datagrams D xxh data
      = (List.range ((data.length + (D - 16) - 1) / (D - 16))).map
          (dgramOf (D - 16) xxh data ((data.length + (D - 16) - 1) / (D - 16))) := by
    simp [split_to_datagrams, get_datagram_sizes]
  rw [hsplit] at hperm
  obtain ⟨I, hIp, rfl⟩ := exists_perm_map _ _ _ hperm _ rfl
  have hcnt1 : 1 ≤ (data.length + (D - 16) - 1) / (D - 16) :=
    (Nat.one_le_div_iff h0).mpr (by omega)
  have hIne : I ≠ [] := by
    intro hnil
    subst hnil
    have hlen := hIp.length_eq
    simp at hlen
    omega
  have hrun := feedAll_run D xxh data ((data.length + (D - 16) - 1) / (D - 16))
    h0 hcnt I [] hIne (by simpa using hIp)
  rw [fragStOf_nil] at hrun
  rw [hrun, bufOf_full (D - 16) data _ h0
    (le_mul_ceil data.length (D - 16) h0 hlen1)]

/-- Witness for C3 at `D = 20`, a five-byte block and the reversed
datagram order: reassembly yields the block padded to `2 · 4` bytes. -/
theorem claim_C3_witness :
    feedAll 20 ((split_to_datagrams 20 (fun _ => 7) [1, 2, 3, 4, 5]).reverse) []
      = some ([[1, 2, 3, 4, 5] ++ List.replicate 3 0], []) :=
  claim_C3_fragmentation_roundtrip 20 (fun _ => 7) [1, 2, 3, 4, 5]
    ((split_to_datagrams 20 (fun _ => 7) [1, 2, 3, 4, 5]).reverse)
    (by decide) (by decide) (by decide) (by decide)

/-- C6 counterexample: the file written by `store_state` does not carry
each section's length immediately before that section; all four lengths
come first.  With a one-byte rng section and empty remaining sections the
two layouts differ (byte 8 is the rng byte in the per-section layout but
a length byte in the written file). -/
theorem claim_C6_counterexample :
    store_state_bytes [1] [] [] [] ≠ store_state_bytes_spec [1] [] [] [] := by
  decide

/-- C6 (amended): the state file consists of a 32-byte header holding the
four section lengths as `u64 LE`, followed by the four sections
concatenated in the order {rng, layers, pks, distribution} — not
length-section pairs interleaved — and loading parses that layout back
exactly (whenever each length fits a `u64`). -/
theorem claim_C6_persisted_layout (r l p d : List Nat)
    (hr : r.length < 256 ^ 8) (hl : l.length < 256 ^ 8)
    (hp : p.length < 256 ^ 8) (hd : d.length < 256 ^ 8) :
    load_state_bytes (store_state_bytes r l p d) = some (r, l, p, d) := by
  have h8r : (leBytes 8 r.length).length = 8 := leBytes_length 8 _
  have h8l : (leBytes 8 l.length).length = 8 := leBytes_length 8 _
  have h8p : (leBytes 8 p.length).length = 8 := leBytes_length 8 _
  have h8d : (leBytes 8 d.length).length = 8 := leBytes_length 8 _
  unfold store_state_bytes load_state_bytes
  rw [if_neg (by simp [leBytes_length]; omega)]
  have e2 : (leBytes 8 r.length ++ (leBytes 8 l.length ++ (leBytes 8 p.length
      ++ (leBytes 8 d.length ++ (r ++ (l ++ (p ++ d))))))).drop 8
      = leBytes 8 l.length ++ (leBytes 8 p.length
        ++ (leBytes 8 d.length ++ (r ++ (l ++ (p ++ d))))) := List.drop_left' h8r
  have e3 : (leBytes 8 r.length ++ (leBytes 8 l.length ++ (leBytes 8 p.length
      ++ (leBytes 8 d.length ++ (r ++ (l ++ (p ++ d))))))).drop 16
      = leBytes 8 p.length ++ (leBytes 8 d.length ++ (r ++ (l ++ (p ++ d)))) := by
    have h16 : (leBytes 8 r.length ++ (leBytes 8 l.length ++ (leBytes 8 p.length
        ++ (leBytes 8 d.length ++ (r ++ (l ++ (p ++ d))))))).drop 16
        = ((leBytes 8 r.length ++ (leBytes 8 l.length ++ (leBytes 8 p.length
          ++ (leBytes 8 d.length ++ (r ++ (l ++ (p ++ d))))))).drop 8).drop 8 := by
      rw [List.drop_drop]
    rw [h16, e2, List.drop_left' h8l]
  have e4 : (leBytes 8 r.length ++ (leBytes 8 l.length ++ (leBytes 8 p.length
      ++ (leBytes 8 d.length ++ (r ++ (l ++ (p ++ d))))))).drop 24
      = leBytes 8 d.length ++ (r ++ (l ++ (p ++ d))) := by
    have h24 : (leBytes 8 r.length ++ (leBytes 8 l.length ++ (leBytes 8 p.length
        ++ (leBytes 8 d.length ++ (r ++ (l ++ (p ++ d))))))).drop 24
        = ((leBytes 8 r.length ++ (leBytes 8 l.length ++ (leBytes 8 p.length
          ++ (leBytes 8 d.length ++ (r ++ (l ++ (p ++ d))))))).drop 16).drop 8 := by
      rw [List.drop_drop]
    rw [h24, e3, List.drop_left' h8p]
  have e5 : (leBytes 8 r.length ++ (leBytes 8 l.length ++ (leBytes 8 p.length
      ++ (leBytes 8 d.length ++ (r ++ (l ++ (p ++ d))))))).drop 32
      = r ++ (l ++ (p ++ d)) := by
    have h32 : (leBytes 8 r.length ++ (leBytes 8 l.length ++ (leBytes 8 p.length
        ++ (leBytes 8 d.length ++ (r ++ (l ++ (p ++ d))))))).drop 32
        = ((leBytes 8 r.length ++ (leBytes 8 l.length ++ (leBytes 8 p.length
          ++ (leBytes 8 d.length ++ (r ++ (l ++ (p ++ d))))))).drop 24).drop 8 := by
      rw [List.drop_drop]
    rw [h32, e4, List.drop_left' h8d]
  rw [List.take_left' h8r, e2, List.take_left' h8l, e3, List.take_left' h8p,
    e4, List.take_left' h8d, e5]
  rw [fromLE_leBytes, fromLE_leBytes, fromLE_leBytes, fromLE_leBytes]
  rw [Nat.mod_eq_of_lt hr, Nat.mod_eq_of_lt hl, Nat.mod_eq_of_lt hp,
    Nat.mod_eq_of_lt hd]
  rw [if_neg (by simp)]
  rw [List.take_left' rfl, List.drop_left' rfl, List.take_left' rfl,
    List.drop_left' rfl, List.take_left' rfl, List.drop_left' rfl,
    List.take_length]

/-- Witness for C6 at concrete sections: storing and re-loading
round-trips. -/
theorem claim_C6_witness :
    load_state_bytes (store_state_bytes [1, 2] [3] [] [4])
      = some ([1, 2], [3], [], [4]) :=
  claim_C6_persisted_layout [1, 2] [3] [] [4]
    (by decide) (by decide) (by decide) (by decide)

/-- Witness for C4 at a concrete one-layer state: the invariant holds and
the sampled layer is in range, so the `next_key` call succeeds. -/
theorem claim_C4_witness :
    (BlockSigner.next_key (fun r => ((0 : Nat), r)) 1 0 (fun y => [y.sum % 256])
      c4State 5).isSome = true := by
  obtain ⟨k0, tail, st2, h1, h2, h3, h4, h5⟩ :=
    claim_C4_key_eviction (fun r => ((0 : Nat), r)) 1 0 (fun y => [y.sum % 256])
      c4State 5 (by decide) (by decide)
  rw [h2]
  rfl

end Audibro
